import Mathlib

/-!
Verification of the Family-Tree repository's GEDCOM core: the graph linker,
the family data store queries, the relationship describer and the date
parsers.  The repository contains two near-identical variants of the core:
a vanilla-JS one (js/timeline.js parser + js/family-data.js store) and a
TypeScript one (src/utils/gedcom-parser.ts).  Where the variants differ in a
way a claim can observe, both are embedded, with Js/Ts prefixes.

Conventions of the shallow embedding:
* JS objects become structures; `undefined`/absent fields become `Option`.
* JS `Map` built as `new Map(list.map(p => [p.id, p]))` is embedded as a
  last-entry-wins lookup over the underlying list (`mapGet`), which is the
  observable behaviour of `Map.get`.
* In-place mutation of a person fetched from such a map is embedded as a
  functional update of every list element with that id (`updAll`); through
  `mapGet` this is observationally the same as the JS mutation.
* Presentation-only scalar fields of records (photos, occupations, event
  details beyond date/place, ...) that no claim observes are elided.
-/

/-- An extracted event: display date and place (js formatEventData /
ts extractEvent output, restricted to the fields the linker copies). -/
structure Event where
  date : Option String := none
  place : Option String := none
deriving Repr, DecidableEq

/-- One entry of a person's spouse list: the other spouse's id plus the
family's marriage/divorce events (ts `Spouse` has no divorce key, so the
ts converter always leaves `divorce` at `none`). -/
structure SpouseEntry where
  person : String
  marriage : Option Event := none
  divorce : Option Event := none
deriving Repr, DecidableEq

/-- A converted individual, restricted to identity and the three edge lists
(`parents`/`spouses`/`children`) that the linker populates and the store
queries traverse. -/
structure Person where
  id : String
  name : String := ""
  parents : List String := []
  spouses : List SpouseEntry := []
  children : List String := []
deriving Repr, DecidableEq

/-- A converted family record: optional husband/wife ids, ordered children
ids, marriage/divorce events.  Same shape in both variants. -/
structure Family where
  id : String := ""
  husband : Option String := none
  wife : Option String := none
  children : List String := []
  marriage : Option Event := none
  divorce : Option Event := none
deriving Repr, DecidableEq

/-- `new Map(ps.map(p => [p.id, p])).get(id)`: the last person in the list
with the given id, if any. -/
def mapGet (ps : List Person) (id : String) : Option Person :=
  ps.foldl (fun acc p => if p.id = id then some p else acc) none

/-- Mutating the map-resident person with a given id, functionally: apply
`g` to every list element whose id matches. -/
def updAll (ps : List Person) (id : String) (g : Person → Person) : List Person :=
  ps.map (fun p => if p.id = id then g p else p)

/-- `person.spouses.push(e)` -/
def addSpouse (e : SpouseEntry) (p : Person) : Person :=
  { p with spouses := p.spouses ++ [e] }

/-- `person.parents.push(x)` -/
def addParent (x : String) (p : Person) : Person :=
  { p with parents := p.parents ++ [x] }

/-- `person.children.push(x)` -/
def addChild (x : String) (p : Person) : Person :=
  { p with children := p.children ++ [x] }

/-- `opt` when it holds an id that resolves in `ps`, else `none` (the
`personMap.get(...)` existence tests of the linkers). -/
def resolves (ps : List Person) (opt : Option String) : Option String :=
  match opt with
  | none => none
  | some x => if (mapGet ps x).isSome then some x else none

/-!
### The js graph linker

`GedcomParser.buildFamilyTree` (js/timeline.js, lines 694-733): for each
family, if both husband and wife resolve, push a mutual spouse entry to
each; then for each resolving child, push the husband's id (resp. wife's)
onto the child's `parents` and the child's id onto the husband's (resp.
wife's) `children`.  All pushes are blind appends.
-/

/-- The `if (husband && wife)` spouse-linking block: push a mutual spouse
entry onto both when both resolved. -/
def jsLinkSpouses (husband? wife? : Option String) (marriage divorce : Option Event)
    (ps : List Person) : List Person :=
  match husband?, wife? with
  | some h, some w =>
      updAll (updAll ps h (addSpouse ⟨w, marriage, divorce⟩))
        w (addSpouse ⟨h, marriage, divorce⟩)
  | _, _ => ps

/-- The `children.forEach` body: for one resolved child, push the resolved
husband onto its parents and it onto the husband's children; then the same
for the wife. -/
def jsLinkChildStep (husband? wife? : Option String) (ps : List Person)
    (childId : String) : List Person :=
  let ps :=
    match husband? with
    | some h => updAll (updAll ps childId (addParent h)) h (addChild childId)
    | none => ps
  match wife? with
  | some w => updAll (updAll ps childId (addParent w)) w (addChild childId)
  | none => ps

/-- Process one family record of the js linker against the people list. -/
def jsLinkFamily (ps0 : List Person) (famData : Family) : List Person :=
  let husband? := resolves ps0 famData.husband
  let wife? := resolves ps0 famData.wife
  let children := famData.children.filter (fun id => (mapGet ps0 id).isSome)
  children.foldl (jsLinkChildStep husband? wife?)
    (jsLinkSpouses husband? wife? famData.marriage famData.divorce ps0)

/-- The whole `families.forEach` linking loop of `buildFamilyTree`. -/
def jsLinkFamilies (ps : List Person) (fams : List Family) : List Person :=
  fams.foldl jsLinkFamily ps

/-!
### The ts graph linker

`FamilyDataStore.buildIndex` (src/utils/gedcom-parser.ts, lines 434-459):
for each family, for each child id in the family's children list, push the
child id onto the resolving husband's (resp. wife's) `children` unless it is
already there.  It never touches anyone's `parents` or `spouses`; those were
filled per-individual by the converter from FAMC/FAMS.
-/

/-- The `family.children.forEach` push-unless-included loop of buildIndex. -/
def pushChildrenDedup (children : List String) (childIds : List String) : List String :=
  childIds.foldl (fun acc childId => if childId ∈ acc then acc else acc ++ [childId]) children

/-- Process one family of `buildIndex`: husband block then wife block. -/
def tsLinkFamily (ps : List Person) (family : Family) : List Person :=
  let ps :=
    match family.husband with
    | some h => updAll ps h (fun p => { p with children := pushChildrenDedup p.children family.children })
    | none => ps
  match family.wife with
  | some w => updAll ps w (fun p => { p with children := pushChildrenDedup p.children family.children })
  | none => ps

/-- `FamilyDataStore.buildIndex` over all families. -/
def buildIndex (ps : List Person) (fams : List Family) : List Person :=
  fams.foldl tsLinkFamily ps

/-!
### The ts record converter (edge-building part)

`GedcomParser.convertIndividual` (src/utils/gedcom-parser.ts, lines
186-246): spouses come from the individual's own FAMS pointers, parents
from its own FAMC pointers, children are left empty (they are filled later
by buildIndex).  Raw records are embedded with exactly the fields this part
reads; the scalar-or-array shape of FAMS/FAMC/CHIL is normalised to a list
(the code itself wraps scalars into singleton arrays).  `MARR`/`DIV` are
modelled post-`extractEvent` since the claims observe only the resulting
`Event` value.
-/

/-- Raw INDI record fields read by the edge-building part of the converter. -/
structure GedcomRecordIndi where
  NAME : Option String := none
  FAMS : List String := []
  FAMC : List String := []
deriving Repr, DecidableEq

/-- Raw FAM record fields read by the converter. -/
structure GedcomRecordFam where
  HUSB : Option String := none
  WIFE : Option String := none
  CHIL : List String := []
  MARR : Option Event := none
  DIV : Option Event := none
deriving Repr, DecidableEq

/-- Lookup in a parse-stage map (`this.families` etc.), keyed by xref
without the at-signs; `Map.set` on a repeated key overwrites, so the last
binding wins. -/
def recGet {α : Type} (l : List (String × α)) (k : String) : Option α :=
  l.foldl (fun acc kv => if kv.1 = k then some kv.2 else acc) none

/-- `s.startsWith(pre)`, computed structurally on the character lists (the
library version does not reduce in the kernel). -/
def strStartsWith (s pre : String) : Bool :=
  pre.data.isPrefixOf s.data

/-- JS whitespace class restricted to the ASCII characters that occur in
GEDCOM text. -/
def isWsChar (c : Char) : Bool :=
  c = ' ' || c = '\t' || c = '\n' || c = '\r'

/-- `s.trim()` on the character list. -/
def trimChars (l : List Char) : List Char :=
  ((l.dropWhile isWsChar).reverse.dropWhile isWsChar).reverse

/-- `v.startsWith('@') ? v : `@v@`` -/
def atWrap (v : String) : String :=
  if strStartsWith v "@" then v else "@" ++ v ++ "@"

/-- `String(famId).replace(/@/g, '')`: a global single-character deletion
is a filter. -/
def stripAts (s : String) : String :=
  ⟨s.data.filter (fun c => c ≠ '@')⟩

/-- `extractName`: scalar NAME with slashes removed and trimmed, `Unknown`
when absent (the structured GIVN/SURN sub-record form is not exercised
here). -/
def extractNameTs (record : GedcomRecordIndi) : String :=
  match record.NAME with
  | none => "Unknown"
  | some s => ⟨trimChars (s.data.filter (fun c => c ≠ '/'))⟩

/-- `GedcomParser.convertIndividual`: builds the person with empty edge
lists, then fills `spouses` from FAMS and `parents` from FAMC. -/
def convertIndividual (famRecords : List (String × GedcomRecordFam))
    (id : String) (record : GedcomRecordIndi) : Person :=
  let person : Person :=
    { id := "@" ++ id ++ "@", name := extractNameTs record
      parents := [], spouses := [], children := [] }
  let person := record.FAMS.foldl (fun person famId =>
    match recGet famRecords (stripAts famId) with
    | none => person
    | some family =>
      let husbandId := family.HUSB.map atWrap
      let wifeId := family.WIFE.map atWrap
      let spouseId := if husbandId = some person.id then wifeId else husbandId
      match spouseId with
      | none => person
      | some sp =>
          { person with spouses := person.spouses ++ [{ person := sp, marriage := family.MARR }] }) person
  record.FAMC.foldl (fun person famId =>
    match recGet famRecords (stripAts famId) with
    | none => person
    | some family =>
      let person :=
        match family.HUSB with
        | some h => { person with parents := person.parents ++ [atWrap h] }
        | none => person
      match family.WIFE with
      | some w => { person with parents := person.parents ++ [atWrap w] }
      | none => person) person

/-- `GedcomParser.convertFamily`. -/
def convertFamily (id : String) (record : GedcomRecordFam) : Family :=
  { id := "@" ++ id ++ "@"
    husband := record.HUSB.map atWrap
    wife := record.WIFE.map atWrap
    children := record.CHIL.map atWrap
    marriage := record.MARR
    divorce := record.DIV }

/-- `convertToStructuredData` restricted to people and families. -/
def convertToStructuredData (indiRecords : List (String × GedcomRecordIndi))
    (famRecords : List (String × GedcomRecordFam)) : List Person × List Family :=
  (indiRecords.map (fun kv => convertIndividual famRecords kv.1 kv.2),
   famRecords.map (fun kv => convertFamily kv.1 kv.2))

/-!
### The family data store
-/

/-- The parsed data handed to `loadFromGedcom`, restricted to the entity
collections the claims observe. -/
structure ParsedGedcomData where
  people : List Person := []
  families : List Family := []
deriving Repr, DecidableEq

/-- `FamilyDataStore` state. -/
structure FamilyDataStore where
  people : List Person := []
  families : List Family := []
  isLoaded : Bool := false
deriving Repr, DecidableEq

/-- ts `loadFromGedcom`: unconditionally replaces every collection with the
new parse's data, then runs `buildIndex` (which mutates the new people). -/
def tsLoadFromGedcom (_store : FamilyDataStore) (parsedData : ParsedGedcomData) : FamilyDataStore :=
  { people := buildIndex parsedData.people parsedData.families
    families := parsedData.families
    isLoaded := true }

/-- js `loadFromGedcom` (js/family-data.js): replaces the collections and
rebuilds the id index; its `buildIndex` only builds the map and performs no
linking (linking happened in the parser). -/
def jsLoadFromGedcom (_store : FamilyDataStore) (parsedData : ParsedGedcomData) : FamilyDataStore :=
  { people := parsedData.people
    families := parsedData.families
    isLoaded := true }

/-- `getPerson(id)`. -/
def getPerson (s : FamilyDataStore) (id : String) : Option Person :=
  mapGet s.people id

/-- `getAllPeople()`. -/
def getAllPeople (s : FamilyDataStore) : List Person :=
  s.people

/-- `getParents(personId)`: map ids through the index, keep the hits. -/
def getParents (s : FamilyDataStore) (personId : String) : List Person :=
  match getPerson s personId with
  | none => []
  | some person => person.parents.filterMap (fun id => getPerson s id)

/-- `getChildren(personId)`. -/
def getChildren (s : FamilyDataStore) (personId : String) : List Person :=
  match getPerson s personId with
  | none => []
  | some person => person.children.filterMap (fun id => getPerson s id)

/-- `getSiblings(personId)`: union of parents' other children, dedup by id
(the JS `Set` keeps insertion order), then resolved. -/
def getSiblings (s : FamilyDataStore) (personId : String) : List Person :=
  match getPerson s personId with
  | none => []
  | some person =>
    let siblingIds := person.parents.foldl (fun acc parentId =>
      match getPerson s parentId with
      | none => acc
      | some parent => parent.children.foldl (fun acc childId =>
          if childId = personId then acc
          else if childId ∈ acc then acc else acc ++ [childId]) acc) []
    siblingIds.filterMap (fun id => getPerson s id)

/-- One element of `getSpouses`' result: the resolved spouse plus the
marriage/divorce data of the entry. -/
structure SpouseView where
  person : Person
  marriage : Option Event := none
  divorce : Option Event := none
deriving Repr, DecidableEq

/-- js `getSpouses(personId)` (the ts variant additionally forces
`divorce` to undefined; both return `[]` for an unknown id). -/
def getSpouses (s : FamilyDataStore) (personId : String) : List SpouseView :=
  match getPerson s personId with
  | none => []
  | some person => person.spouses.filterMap (fun e =>
      (getPerson s e.person).map (fun sp => ⟨sp, e.marriage, e.divorce⟩))

/-!
### Ancestor / descendant traversal

`getAncestors` / `getDescendants` (identical in both variants): recursive
`traverse(id, generation)` guarded by `generation > maxGenerations ||
visited.has(id)`, which pushes a generation-tagged copy of each resolving
parent (child) and recurses into it with `generation + 1`.

The embedding carries an explicit `fuel` alongside `generation`, kept at
`maxGenerations + 1 - generation` at every call, so that `fuel = 0` is
exactly the `generation > maxGenerations` guard of the source; `generation`
itself strictly increases on every recursive call, which is why the source
recursion terminates. -/

/-- `{...person, generation}`: a person tagged with the generation at which
the traversal pushed it. -/
structure GenPerson where
  person : Person
  generation : Nat
deriving Repr, DecidableEq

/-- The mutable state of a traversal: the `visited` set (as an
insertion-ordered list) and the output list. -/
structure TraverseState where
  visited : List String := []
  out : List GenPerson := []
deriving Repr, DecidableEq

/-- One `traverse(id, generation)` call of `getAncestors`: check the
guard, mark visited, then run the `person.parents.forEach` body, which
pushes each resolving parent tagged with the current generation and
recurses into it with `generation + 1` (and one unit of fuel fewer). -/
def ancGo (s : FamilyDataStore) : Nat → String → Nat → TraverseState → TraverseState
  | 0, _, _, st => st
  | Nat.succ fuel, id, generation, st =>
    if id ∈ st.visited then st
    else
      let st1 : TraverseState := { st with visited := st.visited ++ [id] }
      match mapGet s.people id with
      | none => st1
      | some person =>
        person.parents.foldl (fun st2 parentId =>
          match mapGet s.people parentId with
          | none => st2
          | some parent =>
            ancGo s fuel parentId (generation + 1)
              { st2 with out := st2.out ++ [⟨parent, generation⟩] }) st1

/-- The full traversal state of `getAncestors(personId, maxGenerations)`;
the initial call is `traverse(personId, 1)`, so the initial fuel is
`maxGenerations + 1 - 1`. -/
def getAncestorsState (s : FamilyDataStore) (personId : String) (maxGenerations : Nat) :
    TraverseState :=
  ancGo s maxGenerations personId 1 ⟨[], []⟩

/-- `getAncestors(personId, maxGenerations)`. -/
def getAncestors (s : FamilyDataStore) (personId : String) (maxGenerations : Nat) :
    List GenPerson :=
  (getAncestorsState s personId maxGenerations).out

/-- One `traverse(id, generation)` call of `getDescendants`, with the
`person.children.forEach` body inlined as a fold exactly as in `ancGo`. -/
def descGo (s : FamilyDataStore) : Nat → String → Nat → TraverseState → TraverseState
  | 0, _, _, st => st
  | Nat.succ fuel, id, generation, st =>
    if id ∈ st.visited then st
    else
      let st1 : TraverseState := { st with visited := st.visited ++ [id] }
      match mapGet s.people id with
      | none => st1
      | some person =>
        person.children.foldl (fun st2 childId =>
          match mapGet s.people childId with
          | none => st2
          | some child =>
            descGo s fuel childId (generation + 1)
              { st2 with out := st2.out ++ [⟨child, generation⟩] }) st1

/-- The full traversal state of `getDescendants(personId, maxGenerations)`. -/
def getDescendantsState (s : FamilyDataStore) (personId : String) (maxGenerations : Nat) :
    TraverseState :=
  descGo s maxGenerations personId 1 ⟨[], []⟩

/-- `getDescendants(personId, maxGenerations)`. -/
def getDescendants (s : FamilyDataStore) (personId : String) (maxGenerations : Nat) :
    List GenPerson :=
  (getDescendantsState s personId maxGenerations).out

/-- A chain of `n` child-edges from `x` to `z` through resolving persons of
the store: witnesses that `z` is `n` hops below `x`. -/
inductive ChildPath (s : FamilyDataStore) : String → String → Nat → Prop
  | refl (x : String) : ChildPath s x x 0
  | step {x y z : String} {n : Nat} {P : Person} :
      ChildPath s x y n → mapGet s.people y = some P → z ∈ P.children →
      ChildPath s x z (n + 1)

/-!
### Relationship calculation (js/family-data.js only)

`calculateRelationship(person1Id, person2Id)`: BFS from person1 over the
union of parent/child/spouse edges, stopping at the first edge whose target
is person2; `describeRelationship` turns the discovered path into a label
by counting parent and child steps.

The source's `while (queue.length > 0)` loop terminates because an id is
enqueued only when first added to the visited set, and every enqueued id is
an edge target of some store person, so the number of iterations is at most
one (the initial queue) plus the total number of edge entries in the store.
The embedding runs the same loop on a fuel that is at least that bound. -/

/-- One BFS edge: target id and edge type (`parent` / `child` / `spouse`). -/
structure Conn where
  id : String
  ctype : String
deriving Repr, DecidableEq

/-- The `connections` array of a visited person: parents, then children,
then spouses, in list order. -/
def connections (p : Person) : List Conn :=
  p.parents.map (fun id => ⟨id, "parent"⟩) ++
  p.children.map (fun id => ⟨id, "child"⟩) ++
  p.spouses.map (fun e => ⟨e.person, "spouse"⟩)

/-- `describeRelationship(path)` (js/family-data.js, lines 362-409). -/
def describeRelationship (path : List Conn) : String :=
  if path.length = 0 then "Self"
  else
    let single : Option String :=
      if path.length = 1 then
        match path.head? with
        | some conn =>
          if conn.ctype = "parent" then some "Parent"
          else if conn.ctype = "child" then some "Child"
          else if conn.ctype = "spouse" then some "Spouse"
          else none
        | none => none
      else none
    match single with
    | some r => r
    | none =>
      let parentSteps := (path.filter (fun step => step.ctype = "parent")).length
      let childSteps := (path.filter (fun step => step.ctype = "child")).length
      let hasSpouse := path.any (fun step => step.ctype = "spouse")
      if parentSteps = 1 && childSteps = 0 then
        if hasSpouse then "Parent's spouse" else "Parent"
      else if parentSteps = 0 && childSteps = 1 then
        if hasSpouse then "Spouse's child" else "Child"
      else if parentSteps = 2 && childSteps = 0 then "Grandparent"
      else if parentSteps = 0 && childSteps = 2 then "Grandchild"
      else if parentSteps = 3 && childSteps = 0 then "Great-grandparent"
      else if parentSteps = 0 && childSteps = 3 then "Great-grandchild"
      else if parentSteps = 1 && childSteps = 1 then "Sibling"
      else if parentSteps = 2 && childSteps = 1 then "Aunt/Uncle"
      else if parentSteps = 1 && childSteps = 2 then "Niece/Nephew"
      else if parentSteps = 2 && childSteps = 2 then "First cousin"
      else if parentSteps > 0 && childSteps > 0 then
        let minGen := Nat.min parentSteps childSteps
        let diff := Nat.max parentSteps childSteps - Nat.min parentSteps childSteps
        if minGen ≥ 2 then
          let cousinNum := minGen - 1
          let ordinal :=
            if cousinNum = 1 then "1st"
            else if cousinNum = 2 then "2nd"
            else if cousinNum = 3 then "3rd"
            else toString cousinNum ++ "th"
          let result := ordinal ++ " cousin"
          if diff > 0 then result ++ " " ++ toString diff ++ "x removed" else result
        else "Related (" ++ toString path.length ++ " steps)"
      else "Related (" ++ toString path.length ++ " steps)"

/-- The `for (const conn of connections)` loop body: return the extended
path on finding the target, otherwise enqueue each not-yet-visited target
(marking it visited) and keep scanning. -/
def scanConns (target : String) (path : List Conn) (conns : List Conn)
    (queue : List (String × List Conn)) (visited : List String) :
    Option (List Conn) × List (String × List Conn) × List String :=
  match conns with
  | [] => (none, queue, visited)
  | conn :: rest =>
    if conn.id = target then (some (path ++ [conn]), queue, visited)
    else if conn.id ∈ visited then scanConns target path rest queue visited
    else scanConns target path rest (queue ++ [(conn.id, path ++ [conn])]) (visited ++ [conn.id])

/-- The `while (queue.length > 0)` loop: shift the queue head, skip it if
its id does not resolve, otherwise scan its connections. -/
def bfsLoop (s : FamilyDataStore) (target : String) :
    Nat → List (String × List Conn) → List String → Option (List Conn)
  | 0, _, _ => none
  | Nat.succ _fuel, [], _ => none
  | Nat.succ fuel, (currentId, path) :: queue, visited =>
    match mapGet s.people currentId with
    | none => bfsLoop s target fuel queue visited
    | some current =>
      match scanConns target path (connections current) queue visited with
      | (some found, _, _) => some found
      | (none, queue1, visited1) => bfsLoop s target fuel queue1 visited1

/-- An upper bound on the number of iterations of the BFS loop: the initial
queue entry plus one possible enqueue per edge entry in the store (each id
is enqueued at most once, guarded by the visited set). -/
def bfsFuel (s : FamilyDataStore) : Nat :=
  (s.people.map (fun p => (connections p).length)).sum + s.people.length + 2

/-- `calculateRelationship(person1Id, person2Id)`: the relationship label
and the discovered path. -/
def calculateRelationship (s : FamilyDataStore) (person1Id person2Id : String) :
    String × List Conn :=
  if person1Id = person2Id then ("Same person", [])
  else
    match bfsLoop s person2Id (bfsFuel s) [(person1Id, [])] [person1Id] with
    | some fullPath => (describeRelationship fullPath, fullPath)
    | none => ("No direct relationship found", [])

/-!
### Date parsing

Two distinct implementations exist:
* `GedcomParser.parseDate` in js/timeline.js (lines 592-650): strips the
  leading ABT/ABOUT/EST/CAL/BEF/AFT/BET qualifier from the upper-cased
  string, then tries the three shapes `\d{1,2}\s+[A-Z]{3}\s+\d{4}`,
  `[A-Z]{3}\s+\d{4}`, `\d{4}` in that order (`jsParseDate` here);
* `GedcomParser.parseDate` in src/utils/gedcom-parser.ts (lines 346-360):
  extracts `\d{4}` as the year and, independently, the first `\d{1,2}` run
  of the raw string as the month (`tsParseDate` here).

The regex matchers are embedded as leftmost-match scanners over the
character list with the same greedy/backtracking behaviour the JS engine
has on these patterns.
-/

/-- `\d` -/
def isDigitChar (c : Char) : Bool :=
  '0' ≤ c && c ≤ '9'

/-- `[A-Z]` -/
def isUpperAZ (c : Char) : Bool :=
  'A' ≤ c && c ≤ 'Z'

/-- `parseInt` on a run of decimal digits. -/
def digitsToNat (ds : List Char) : Nat :=
  ds.foldl (fun acc c => acc * 10 + (c.toNat - 48)) 0

/-- Match exactly `n` digits at the head of the list. -/
def takeDigits : Nat → List Char → Option (List Char × List Char)
  | 0, l => some ([], l)
  | Nat.succ _, [] => none
  | Nat.succ n, c :: rest =>
    if isDigitChar c then (takeDigits n rest).map (fun p => (c :: p.1, p.2)) else none

/-- `\s+` at the head: at least one whitespace character, consumed
greedily (whitespace and digits/letters are disjoint, so greediness never
needs backtracking in the date patterns). -/
def takeWs1 : List Char → Option (List Char)
  | [] => none
  | c :: rest => if isWsChar c then some (rest.dropWhile isWsChar) else none

/-- `[A-Z]{3}` at the head. -/
def takeAlpha3 : List Char → Option (List Char × List Char)
  | a :: b :: c :: rest =>
    if isUpperAZ a && isUpperAZ b && isUpperAZ c then some ([a, b, c], rest) else none
  | _ => none

/-- One backtracking alternative of the day-month-year pattern: exactly
`k` digits, then `\s+([A-Z]{3})\s+(\d{4})`. -/
def matchDMYAtK (k : Nat) (l : List Char) : Option (Nat × List Char × Nat) :=
  match takeDigits k l with
  | none => none
  | some (d, r1) =>
    match takeWs1 r1 with
    | none => none
    | some r2 =>
      match takeAlpha3 r2 with
      | none => none
      | some (m, r3) =>
        match takeWs1 r3 with
        | none => none
        | some r4 =>
          match takeDigits 4 r4 with
          | none => none
          | some (y, _) => some (digitsToNat d, m, digitsToNat y)

/-- `(\d{1,2})\s+([A-Z]{3})\s+(\d{4})` anchored at the head; the greedy
two-digit day is tried first, one digit on backtracking. -/
def matchDMYAt (l : List Char) : Option (Nat × List Char × Nat) :=
  match matchDMYAtK 2 l with
  | some r => some r
  | none => matchDMYAtK 1 l

/-- Leftmost match of the day-month-year shape. -/
def searchDMY : List Char → Option (Nat × List Char × Nat)
  | [] => none
  | c :: rest =>
    match matchDMYAt (c :: rest) with
    | some r => some r
    | none => searchDMY rest

/-- `([A-Z]{3})\s+(\d{4})` anchored at the head. -/
def matchMYAt (l : List Char) : Option (List Char × Nat) :=
  match takeAlpha3 l with
  | none => none
  | some (m, r1) =>
    match takeWs1 r1 with
    | none => none
    | some r2 =>
      match takeDigits 4 r2 with
      | none => none
      | some (y, _) => some (m, digitsToNat y)

/-- Leftmost match of the month-year shape. -/
def searchMY : List Char → Option (List Char × Nat)
  | [] => none
  | c :: rest =>
    match matchMYAt (c :: rest) with
    | some r => some r
    | none => searchMY rest

/-- `(\d{4})` anchored at the head. -/
def matchYearAt (l : List Char) : Option Nat :=
  (takeDigits 4 l).map (fun p => digitsToNat p.1)

/-- Leftmost match of a four-digit year. -/
def searchYear : List Char → Option Nat
  | [] => none
  | c :: rest =>
    match matchYearAt (c :: rest) with
    | some y => some y
    | none => searchYear rest

/-- The `months` table of the js parser. -/
def monthNum (m : List Char) : Option Nat :=
  if m = ['J', 'A', 'N'] then some 1
  else if m = ['F', 'E', 'B'] then some 2
  else if m = ['M', 'A', 'R'] then some 3
  else if m = ['A', 'P', 'R'] then some 4
  else if m = ['M', 'A', 'Y'] then some 5
  else if m = ['J', 'U', 'N'] then some 6
  else if m = ['J', 'U', 'L'] then some 7
  else if m = ['A', 'U', 'G'] then some 8
  else if m = ['S', 'E', 'P'] then some 9
  else if m = ['O', 'C', 'T'] then some 10
  else if m = ['N', 'O', 'V'] then some 11
  else if m = ['D', 'E', 'C'] then some 12
  else none

/-- ASCII upper-casing (the library `Char.toUpper` does not reduce in the
kernel). -/
def upChar (c : Char) : Char :=
  if 'a' ≤ c && c ≤ 'z' then Char.ofNat (c.toNat - 32) else c

/-- An optional leading `.` (the `\.?` of the qualifier-stripping regexes). -/
def dropDot (l : List Char) : List Char :=
  match l with
  | c :: rest => if c = '.' then rest else c :: rest
  | [] => []

/-- `\s*` at the head. -/
def dropWs (l : List Char) : List Char :=
  l.dropWhile isWsChar

/-- The result object of the js parser. -/
structure JsDateObject where
  original : String
  year : Option Nat := none
  month : Option Nat := none
  day : Option Nat := none
  approximate : Bool := false
  range : Option String := none
deriving Repr, DecidableEq

/-- The qualifier-handling block of the js parser: detect the leading
ABT/ABOUT/EST/CAL/BEF/AFT/BET modifier on the upper-cased text, set the
approximate flag or range classifier, and strip the qualifier (with its
optional dot and trailing whitespace).  Returns
(approximate, range, working). -/
def jsStripQualifier (working0 : List Char) : Bool × Option String × List Char :=
  if List.isPrefixOf ['A', 'B', 'T'] working0 then
    (true, (none : Option String), dropWs (dropDot (working0.drop 3)))
  else if List.isPrefixOf ['A', 'B', 'O', 'U', 'T'] working0 then
    (true, none, dropWs (working0.drop 5))
  else if List.isPrefixOf ['E', 'S', 'T'] working0 then
    (true, none, dropWs (dropDot (working0.drop 3)))
  else if List.isPrefixOf ['C', 'A', 'L'] working0 then
    (true, none, dropWs (dropDot (working0.drop 3)))
  else if List.isPrefixOf ['B', 'E', 'F'] working0 then
    (false, some "before", dropWs (dropDot (working0.drop 3)))
  else if List.isPrefixOf ['A', 'F', 'T'] working0 then
    (false, some "after", dropWs (dropDot (working0.drop 3)))
  else if List.isPrefixOf ['B', 'E', 'T'] working0 then
    (false, some "between", dropWs (dropDot (working0.drop 3)))
  else (false, none, working0)

/-- js `GedcomParser.parseDate(dateString)`; `none` embeds the `null` that
the source returns on an empty string. -/
def jsParseDate (dateString : String) : Option JsDateObject :=
  if dateString = "" then none
  else
    let working0 := dateString.data.map upChar
    let q := jsStripQualifier working0
    match searchDMY q.2.2 with
    | some (d, m, y) =>
        some { original := dateString, year := some y, month := monthNum m, day := some d
               approximate := q.1, range := q.2.1 }
    | none =>
      match searchMY q.2.2 with
      | some (m, y) =>
          some { original := dateString, year := some y, month := monthNum m
                 approximate := q.1, range := q.2.1 }
      | none =>
        match searchYear q.2.2 with
        | some y =>
            some { original := dateString, year := some y
                   approximate := q.1, range := q.2.1 }
        | none => some { original := dateString, approximate := q.1, range := q.2.1 }

/-- The `DateObject` of src/types: every numeric field optional plus the
original string in `full`. -/
structure TsDateObject where
  year : Option Nat := none
  month : Option Nat := none
  day : Option Nat := none
  full : Option String := none
deriving Repr, DecidableEq

/-- Leftmost match of `(\d{1,2})`: the first digit, greedily extended by a
second one. -/
def searchDigits12 : List Char → Option Nat
  | [] => none
  | c :: rest =>
    if isDigitChar c then
      match rest with
      | d :: _ => if isDigitChar d then some (digitsToNat [c, d]) else some (digitsToNat [c])
      | [] => some (digitsToNat [c])
    else searchDigits12 rest

/-- ts `GedcomParser.parseDate(dateStr)`: year from the first `\d{4}` run,
month from the first `\d{1,2}` run of the same raw string, the string
itself in `full`; `day` is never populated and there is no `approximate`
field in the ts `DateObject` at all. -/
def tsParseDate (dateStr : String) : Option TsDateObject :=
  if dateStr = "" then none
  else
    some { year := searchYear dateStr.data, month := searchDigits12 dateStr.data
           full := some dateStr }

/-- Four consecutive decimal digits occur somewhere in the list: the exact
condition for any of the three date-shape regexes to be able to match
(each requires a `\d{4}` group). -/
def hasFourDigits : List Char → Bool
  | a :: b :: c :: d :: rest =>
    (isDigitChar a && isDigitChar b && isDigitChar c && isDigitChar d) ||
      hasFourDigits (b :: c :: d :: rest)
  | _ => false

/-!
### Concrete fixtures

Small stores and record sets used as counterexamples and witnesses.
-/

/-- A deliberately cyclic parent/child graph: A's parent is B and B's
parent is A. -/
def cycleStore : FamilyDataStore :=
  { people :=
      [ { id := "A", name := "A", parents := ["B"], children := ["B"] }
      , { id := "B", name := "B", parents := ["A"], children := ["A"] } ]
    families := [], isLoaded := true }

/-- Converging parent paths: A's parents are B and C, and D is a parent of
both B and C. -/
def diamondStore : FamilyDataStore :=
  { people :=
      [ { id := "A", name := "A", parents := ["B", "C"] }
      , { id := "B", name := "B", parents := ["D"], children := ["A"] }
      , { id := "C", name := "C", parents := ["D"], children := ["A"] }
      , { id := "D", name := "D", children := ["B", "C"] } ]
    families := [], isLoaded := true }

/-- The linked three-generation chain: A's parent is B, B's parent is C,
with the matching child edges and no other connections. -/
def chainStore : FamilyDataStore :=
  { people :=
      [ { id := "A", name := "A", parents := ["B"] }
      , { id := "B", name := "B", parents := ["C"], children := ["A"] }
      , { id := "C", name := "C", children := ["B"] } ]
    families := [], isLoaded := true }

/-- A four-deep descendant chain A → B → C → D (child edges). -/
def deepStore : FamilyDataStore :=
  { people :=
      [ { id := "A", name := "A", children := ["B"] }
      , { id := "B", name := "B", parents := ["A"], children := ["C"] }
      , { id := "C", name := "C", parents := ["B"], children := ["D"] }
      , { id := "D", name := "D", parents := ["C"] } ]
    families := [], isLoaded := true }

/-- An empty store. -/
def emptyStore : FamilyDataStore :=
  { people := [], families := [], isLoaded := false }

/-- Raw GEDCOM records in which only the family side is well-formed: the
family lists `@P@` as a child of husband `@H@`, but the child record `P`
carries no FAMC pointer back to the family. -/
def c1IndiRecords : List (String × GedcomRecordIndi) :=
  [ ("H", { NAME := some "Henry /Test/" })
  , ("P", { NAME := some "Paul /Test/" }) ]

/-- The family record of the C1 counterexample scenario. -/
def c1FamRecords : List (String × GedcomRecordFam) :=
  [ ("F1", { HUSB := some "@H@", CHIL := ["@P@"] }) ]

/-- The ts pipeline applied to the C1 scenario: convert, then load (which
runs `buildIndex`). -/
def c1TsStore : FamilyDataStore :=
  tsLoadFromGedcom ⟨[], [], false⟩
    ⟨(convertToStructuredData c1IndiRecords c1FamRecords).1,
     (convertToStructuredData c1IndiRecords c1FamRecords).2⟩

/-- Raw records in which a family has both a husband and a wife (with a
marriage event) but neither individual record carries a FAMS pointer. -/
def c2IndiRecords : List (String × GedcomRecordIndi) :=
  [ ("H", { NAME := some "Henry /Test/" })
  , ("W", { NAME := some "Wilma /Test/" }) ]

/-- The family record of the C2 counterexample scenario. -/
def c2FamRecords : List (String × GedcomRecordFam) :=
  [ ("F1", { HUSB := some "@H@", WIFE := some "@W@"
             MARR := some { date := some "1 JAN 1900" } }) ]

/-- The ts pipeline applied to the C2 scenario. -/
def c2TsStore : FamilyDataStore :=
  tsLoadFromGedcom ⟨[], [], false⟩
    ⟨(convertToStructuredData c2IndiRecords c2FamRecords).1,
     (convertToStructuredData c2IndiRecords c2FamRecords).2⟩

/-- Unlinked people for the C3 counterexample, as the js converter produces
them (empty edge lists). -/
def c3People : List Person :=
  [ { id := "@H@", name := "H" }, { id := "@W@", name := "W" }, { id := "@C@", name := "C" } ]

/-- A single family over `c3People`. -/
def c3Families : List Family :=
  [ { id := "@F1@", husband := some "@H@", wife := some "@W@", children := ["@C@"] } ]

/-- The js linker run once over the C3 scenario. -/
def c3LinkedOnce : List Person :=
  jsLinkFamilies c3People c3Families

/-- The js linker run twice over the C3 scenario. -/
def c3LinkedTwice : List Person :=
  jsLinkFamilies c3LinkedOnce c3Families

/-- Dataset 1 for the load-replaces scenario: three people. -/
def loadData1 : ParsedGedcomData :=
  { people := [ { id := "@I1@", name := "one" }, { id := "@I2@", name := "two" }
              , { id := "@I3@", name := "three" } ] }

/-- Dataset 2 for the load-replaces scenario: five different people. -/
def loadData2 : ParsedGedcomData :=
  { people := [ { id := "@J1@", name := "a" }, { id := "@J2@", name := "b" }
              , { id := "@J3@", name := "c" }, { id := "@J4@", name := "d" }
              , { id := "@J5@", name := "e" } ] }

/-- Same person, with each edge list possibly extended: the effect of any
sequence of linker pushes on one person. -/
def edgesGrow (p q : Person) : Prop :=
  p.id = q.id ∧ (∀ x, x ∈ p.parents → x ∈ q.parents) ∧
    (∀ x, x ∈ p.children → x ∈ q.children) ∧
    (∀ e, e ∈ p.spouses → e ∈ q.spouses)

/-- Every person resolvable in `ps` is still resolvable in `qs` with grown
edge lists: the effect of any sequence of linker steps on the store. -/
def storeGrow (ps qs : List Person) : Prop :=
  ∀ j P, mapGet ps j = some P → ∃ Q, mapGet qs j = some Q ∧ edgesGrow P Q

/-- The family's children list is already fully recorded on every person
the family names as husband or wife: the post-state of one `buildIndex`
pass over that family. -/
def famCovered (ps : List Person) (f : Family) : Prop :=
  ∀ p ∈ ps,
    (f.husband = some p.id → ∀ c ∈ f.children, c ∈ p.children) ∧
    (f.wife = some p.id → ∀ c ∈ f.children, c ∈ p.children)

/-!
## Lemmas about the id index and updates
-/

theorem mapGet_append_one (ps : List Person) (p : Person) (id : String) :
    mapGet (ps ++ [p]) id = if p.id = id then some p else mapGet ps id := by
  simp [mapGet, List.foldl_append]

theorem mapGet_eq_some_id (ps : List Person) (id : String) (p : Person)
    (h : mapGet ps id = some p) : p.id = id := by
  induction ps using List.reverseRecOn with
  | nil => simp [mapGet] at h
  | append_singleton qs q ih =>
    rw [mapGet_append_one] at h
    by_cases hq : q.id = id
    · rw [if_pos hq] at h
      cases h
      exact hq
    · rw [if_neg hq] at h
      exact ih h

theorem mapGet_eq_none_iff (ps : List Person) (id : String) :
    mapGet ps id = none ↔ id ∉ ps.map Person.id := by
  induction ps using List.reverseRecOn with
  | nil => simp [mapGet]
  | append_singleton qs q ih =>
    rw [mapGet_append_one]
    by_cases hq : q.id = id
    · simp [hq]
    · simp [hq, ih, Ne.symm hq]

theorem mapGet_isSome_iff (ps : List Person) (id : String) :
    (mapGet ps id).isSome = true ↔ id ∈ ps.map Person.id := by
  constructor
  · intro h
    by_contra hmem
    rw [← mapGet_eq_none_iff] at hmem
    rw [hmem] at h
    simp at h
  · intro h
    cases hm : mapGet ps id with
    | none =>
      rw [mapGet_eq_none_iff] at hm
      exact absurd h hm
    | some p => rfl

theorem mapGet_map (φ : Person → Person) (hφ : ∀ p, (φ p).id = p.id)
    (ps : List Person) (id : String) :
    mapGet (ps.map φ) id = (mapGet ps id).map φ := by
  induction ps using List.reverseRecOn with
  | nil => rfl
  | append_singleton qs q ih =>
    rw [List.map_append]
    simp only [List.map_cons, List.map_nil]
    rw [mapGet_append_one, mapGet_append_one, hφ, apply_ite (Option.map φ), ih]
    rfl

theorem mapGet_updAll (ps : List Person) (i : String) (g : Person → Person)
    (hg : ∀ p, (g p).id = p.id) (j : String) :
    mapGet (updAll ps i g) j = if j = i then (mapGet ps j).map g else mapGet ps j := by
  have hφ : ∀ p, ((fun p => if p.id = i then g p else p) p).id = p.id := by
    intro p
    by_cases h : p.id = i <;> simp [h, hg]
  rw [updAll, mapGet_map _ hφ]
  by_cases hj : j = i
  · subst hj
    rw [if_pos rfl]
    cases h : mapGet ps j with
    | none => rfl
    | some p =>
      have := mapGet_eq_some_id ps j p h
      simp [this]
  · rw [if_neg hj]
    cases h : mapGet ps j with
    | none => rfl
    | some p =>
      have := mapGet_eq_some_id ps j p h
      simp [this, hj]

theorem updAll_map_id (ps : List Person) (i : String) (g : Person → Person)
    (hg : ∀ p, (g p).id = p.id) :
    (updAll ps i g).map Person.id = ps.map Person.id := by
  rw [updAll, List.map_map]
  apply List.map_congr_left
  intro p _
  by_cases h : p.id = i <;> simp [h, hg]

theorem edgesGrow_refl (p : Person) : edgesGrow p p :=
  ⟨rfl, fun _ h => h, fun _ h => h, fun _ h => h⟩

theorem edgesGrow_trans {p q r : Person} (h1 : edgesGrow p q) (h2 : edgesGrow q r) :
    edgesGrow p r :=
  ⟨h1.1.trans h2.1, fun x hx => h2.2.1 x (h1.2.1 x hx),
    fun x hx => h2.2.2.1 x (h1.2.2.1 x hx), fun e he => h2.2.2.2 e (h1.2.2.2 e he)⟩

theorem storeGrow_refl (ps : List Person) : storeGrow ps ps :=
  fun _ P h => ⟨P, h, edgesGrow_refl P⟩

theorem storeGrow_trans {ps qs rs : List Person} (h1 : storeGrow ps qs)
    (h2 : storeGrow qs rs) : storeGrow ps rs := by
  intro j P hP
  obtain ⟨Q, hQ, hPQ⟩ := h1 j P hP
  obtain ⟨R, hR, hQR⟩ := h2 j Q hQ
  exact ⟨R, hR, edgesGrow_trans hPQ hQR⟩

theorem storeGrow_updAll (ps : List Person) (i : String) (g : Person → Person)
    (hg : ∀ p, edgesGrow p (g p)) : storeGrow ps (updAll ps i g) := by
  intro j P hP
  rw [mapGet_updAll ps i g (fun p => (hg p).1.symm) j]
  by_cases hj : j = i
  · subst hj
    rw [if_pos rfl, hP]
    exact ⟨g P, rfl, hg P⟩
  · rw [if_neg hj]
    exact ⟨P, hP, edgesGrow_refl P⟩

theorem storeGrow_foldl {β : Type} (step : List Person → β → List Person)
    (hstep : ∀ ps b, storeGrow ps (step ps b)) (l : List β) :
    ∀ ps : List Person, storeGrow ps (l.foldl step ps) := by
  induction l with
  | nil => intro ps; exact storeGrow_refl ps
  | cons b rest ih =>
    intro ps
    exact storeGrow_trans (hstep ps b) (ih (step ps b))

/-!
## Growth of the edge lists under the linker steps
-/

theorem edgesGrow_addParent (x : String) (p : Person) : edgesGrow p (addParent x p) := by
  refine ⟨rfl, ?_, ?_, ?_⟩ <;> intro y hy <;> simp [addParent] at * <;> simp [hy]

theorem edgesGrow_addChild (x : String) (p : Person) : edgesGrow p (addChild x p) := by
  refine ⟨rfl, ?_, ?_, ?_⟩ <;> intro y hy <;> simp [addChild] at * <;> simp [hy]

theorem edgesGrow_addSpouse (e : SpouseEntry) (p : Person) : edgesGrow p (addSpouse e p) := by
  refine ⟨rfl, ?_, ?_, ?_⟩ <;> intro y hy <;> simp [addSpouse] at * <;> simp [hy]

theorem mem_pushChildrenDedup (x : String) (childIds : List String) :
    ∀ l : List String, x ∈ l → x ∈ pushChildrenDedup l childIds := by
  induction childIds with
  | nil => intro l hl; exact hl
  | cons c rest ih =>
    intro l hl
    rw [pushChildrenDedup, List.foldl_cons]
    by_cases hc : c ∈ l
    · rw [if_pos hc]
      exact ih l hl
    · rw [if_neg hc]
      exact ih (l ++ [c]) (List.mem_append_left _ hl)

theorem edgesGrow_pushChildren (childIds : List String) (p : Person) :
    edgesGrow p { p with children := pushChildrenDedup p.children childIds } :=
  ⟨rfl, fun _ hx => hx, fun x hx => mem_pushChildrenDedup x childIds p.children hx,
    fun _ he => he⟩

theorem storeGrow_jsLinkSpouses (husband? wife? : Option String)
    (marriage divorce : Option Event) (ps : List Person) :
    storeGrow ps (jsLinkSpouses husband? wife? marriage divorce ps) := by
  cases husband? with
  | none => exact storeGrow_refl ps
  | some h =>
    cases wife? with
    | none => exact storeGrow_refl ps
    | some w =>
      exact storeGrow_trans
        (storeGrow_updAll ps h (addSpouse ⟨w, marriage, divorce⟩)
          (edgesGrow_addSpouse ⟨w, marriage, divorce⟩))
        (storeGrow_updAll _ w (addSpouse ⟨h, marriage, divorce⟩)
          (edgesGrow_addSpouse ⟨h, marriage, divorce⟩))

theorem storeGrow_linkSide (husband? : Option String) (childId : String)
    (qs : List Person) :
    storeGrow qs
      (match husband? with
      | some x => updAll (updAll qs childId (addParent x)) x (addChild childId)
      | none => qs) := by
  cases husband? with
  | none => exact storeGrow_refl qs
  | some x =>
    exact storeGrow_trans
      (storeGrow_updAll qs childId (addParent x) (edgesGrow_addParent x))
      (storeGrow_updAll _ x (addChild childId) (edgesGrow_addChild childId))

theorem storeGrow_jsLinkChildStep (husband? wife? : Option String)
    (ps : List Person) (childId : String) :
    storeGrow ps (jsLinkChildStep husband? wife? ps childId) :=
  storeGrow_trans (storeGrow_linkSide husband? childId ps)
    (storeGrow_linkSide wife? childId _)

theorem storeGrow_jsLinkFamily (ps : List Person) (famData : Family) :
    storeGrow ps (jsLinkFamily ps famData) :=
  storeGrow_trans
    (storeGrow_jsLinkSpouses (resolves ps famData.husband) (resolves ps famData.wife)
      famData.marriage famData.divorce ps)
    (storeGrow_foldl _
      (fun qs c => storeGrow_jsLinkChildStep (resolves ps famData.husband)
        (resolves ps famData.wife) qs c) _ _)

theorem storeGrow_jsLinkFamilies (ps : List Person) (fams : List Family) :
    storeGrow ps (jsLinkFamilies ps fams) :=
  storeGrow_foldl jsLinkFamily storeGrow_jsLinkFamily fams ps

theorem storeGrow_tsLinkSide (side : Option String) (childIds : List String)
    (qs : List Person) :
    storeGrow qs
      (match side with
      | some x => updAll qs x
          (fun p => { p with children := pushChildrenDedup p.children childIds })
      | none => qs) := by
  cases side with
  | none => exact storeGrow_refl qs
  | some x =>
    exact storeGrow_updAll qs x _ (edgesGrow_pushChildren childIds)

theorem storeGrow_tsLinkFamily (ps : List Person) (family : Family) :
    storeGrow ps (tsLinkFamily ps family) :=
  storeGrow_trans (storeGrow_tsLinkSide family.husband family.children ps)
    (storeGrow_tsLinkSide family.wife family.children _)

theorem storeGrow_buildIndex (ps : List Person) (fams : List Family) :
    storeGrow ps (buildIndex ps fams) :=
  storeGrow_foldl tsLinkFamily storeGrow_tsLinkFamily fams ps

theorem tsLinkSide_map_id (side : Option String) (childIds : List String)
    (qs : List Person) :
    (match side with
      | some x => updAll qs x
          (fun p => { p with children := pushChildrenDedup p.children childIds })
      | none => qs).map Person.id = qs.map Person.id := by
  cases side with
  | none => rfl
  | some x => exact updAll_map_id qs x _ (fun p => rfl)

theorem tsLinkFamily_map_id (ps : List Person) (family : Family) :
    (tsLinkFamily ps family).map Person.id = ps.map Person.id :=
  (tsLinkSide_map_id family.wife family.children _).trans
    (tsLinkSide_map_id family.husband family.children ps)

theorem buildIndex_map_id (ps : List Person) (fams : List Family) :
    (buildIndex ps fams).map Person.id = ps.map Person.id := by
  rw [buildIndex]
  induction fams generalizing ps with
  | nil => rfl
  | cons f rest ih =>
    rw [List.foldl_cons, ih (tsLinkFamily ps f), tsLinkFamily_map_id]

theorem buildIndex_length (ps : List Person) (fams : List Family) :
    (buildIndex ps fams).length = ps.length := by
  have h := congrArg List.length (buildIndex_map_id ps fams)
  simpa using h

/-!
## C8: queries on an absent id
-/

/-- C8: for an id that is not in the store's index, `getPerson` returns the
not-found sentinel (`none` embeds `undefined`) and every traversal or
projection query returns the empty list; all of them are total functions. -/
theorem C8_absent_queries (s : FamilyDataStore) (id : String)
    (h : mapGet s.people id = none) :
    getPerson s id = none ∧ getParents s id = [] ∧ getChildren s id = [] ∧
    getSiblings s id = [] ∧ getSpouses s id = [] ∧
    (∀ maxGenerations, getAncestors s id maxGenerations = []) ∧
    (∀ maxGenerations, getDescendants s id maxGenerations = []) := by
  refine ⟨h, ?_, ?_, ?_, ?_, ?_, ?_⟩
  · simp [getParents, getPerson, h]
  · simp [getChildren, getPerson, h]
  · simp [getSiblings, getPerson, h]
  · simp [getSpouses, getPerson, h]
  · intro mg
    cases mg with
    | zero => simp [getAncestors, getAncestorsState, ancGo]
    | succ n => simp [getAncestors, getAncestorsState, ancGo, h]
  · intro mg
    cases mg with
    | zero => simp [getDescendants, getDescendantsState, descGo]
    | succ n => simp [getDescendants, getDescendantsState, descGo, h]

/-- Witness for C8 at the empty store and the unknown id `X`. -/
theorem C8_absent_queries_witness :
    mapGet emptyStore.people "X" = none ∧
    (getPerson emptyStore "X" = none ∧ getParents emptyStore "X" = [] ∧
      getChildren emptyStore "X" = [] ∧ getSiblings emptyStore "X" = [] ∧
      getSpouses emptyStore "X" = [] ∧
      (∀ maxGenerations, getAncestors emptyStore "X" maxGenerations = []) ∧
      (∀ maxGenerations, getDescendants emptyStore "X" maxGenerations = [])) :=
  ⟨rfl, C8_absent_queries emptyStore "X" rfl⟩

/-!
## C9: a load replaces the previous store state
-/

/-- C9: loading a second parsed dataset fully replaces the first: the
people list is exactly the new dataset's (linked) people, and no id that
only the first dataset defined still resolves.  Stated for both store
variants (the ts `loadFromGedcom` also runs `buildIndex`, which preserves
ids and length). -/
theorem C9_load_replaces (prev : FamilyDataStore) (pd1 pd2 : ParsedGedcomData)
    (_h1 : pd1.people.length = 3) (h2 : pd2.people.length = 5)
    (hdisj : ∀ id, id ∈ pd1.people.map Person.id → id ∉ pd2.people.map Person.id) :
    ((getAllPeople (tsLoadFromGedcom (tsLoadFromGedcom prev pd1) pd2)).length = 5 ∧
      (∀ id, id ∈ pd1.people.map Person.id →
        getPerson (tsLoadFromGedcom (tsLoadFromGedcom prev pd1) pd2) id = none)) ∧
    ((getAllPeople (jsLoadFromGedcom (jsLoadFromGedcom prev pd1) pd2)).length = 5 ∧
      (∀ id, id ∈ pd1.people.map Person.id →
        getPerson (jsLoadFromGedcom (jsLoadFromGedcom prev pd1) pd2) id = none)) := by
  constructor
  · constructor
    · show (buildIndex pd2.people pd2.families).length = 5
      rw [buildIndex_length]
      exact h2
    · intro id hid
      show mapGet (buildIndex pd2.people pd2.families) id = none
      rw [mapGet_eq_none_iff, buildIndex_map_id]
      exact hdisj id hid
  · constructor
    · exact h2
    · intro id hid
      show mapGet pd2.people id = none
      rw [mapGet_eq_none_iff]
      exact hdisj id hid

/-- Witness for C9 at the concrete three-person and five-person datasets. -/
theorem C9_load_replaces_witness :
    (loadData1.people.length = 3 ∧ loadData2.people.length = 5 ∧
      (∀ id, id ∈ loadData1.people.map Person.id → id ∉ loadData2.people.map Person.id)) ∧
    (((getAllPeople (tsLoadFromGedcom (tsLoadFromGedcom emptyStore loadData1) loadData2)).length = 5 ∧
      (∀ id, id ∈ loadData1.people.map Person.id →
        getPerson (tsLoadFromGedcom (tsLoadFromGedcom emptyStore loadData1) loadData2) id = none)) ∧
    ((getAllPeople (jsLoadFromGedcom (jsLoadFromGedcom emptyStore loadData1) loadData2)).length = 5 ∧
      (∀ id, id ∈ loadData1.people.map Person.id →
        getPerson (jsLoadFromGedcom (jsLoadFromGedcom emptyStore loadData1) loadData2) id = none))) :=
  ⟨⟨rfl, rfl, by decide⟩,
    C9_load_replaces emptyStore loadData1 loadData2 rfl rfl (by decide)⟩

/-!
## C6: cycle safety of getAncestors
-/

theorem foldl_invariant {α β : Type} (P : β → Prop) (step : β → α → β)
    (l : List α) (hstep : ∀ b a, a ∈ l → P b → P (step b a)) :
    ∀ b : β, P b → P (l.foldl step b) := by
  induction l with
  | nil => intro b hb; exact hb
  | cons a rest ih =>
    intro b hb
    exact ih (fun b' a' ha' => hstep b' a' (List.mem_cons_of_mem a ha'))
      (step b a) (hstep b a (List.mem_cons_self a rest) hb)

theorem ancGo_visited_nodup (s : FamilyDataStore) :
    ∀ (fuel : Nat) (id : String) (generation : Nat) (st : TraverseState),
      st.visited.Nodup → (ancGo s fuel id generation st).visited.Nodup := by
  intro fuel
  induction fuel with
  | zero => intro id generation st h; exact h
  | succ n ih =>
    intro id generation st h
    rw [ancGo]
    by_cases hv : id ∈ st.visited
    · rw [if_pos hv]; exact h
    · rw [if_neg hv]
      have h1 : (st.visited ++ [id]).Nodup := by
        rw [List.nodup_append]
        exact ⟨h, List.nodup_singleton id, by simpa using hv⟩
      cases hm : mapGet s.people id with
      | none => exact h1
      | some person =>
        refine foldl_invariant (fun st2 : TraverseState => st2.visited.Nodup) _
          person.parents ?_ _ h1
        intro st2 parentId _ h2
        cases hp : mapGet s.people parentId with
        | none => exact h2
        | some parent => exact ih parentId (generation + 1) _ h2

theorem getAncestorsState_visited_nodup (s : FamilyDataStore) (personId : String)
    (maxGenerations : Nat) :
    (getAncestorsState s personId maxGenerations).visited.Nodup :=
  ancGo_visited_nodup s maxGenerations personId 1 ⟨[], []⟩ List.nodup_nil

/-- C6: the traversal of `getAncestors` enters a node only after adding it
to the visited set and skips nodes already there, so the visited set never
holds an id twice — each node is visited at most once however many paths
reach it; on the deliberately cyclic two-person store the call
`getAncestors("A", 10)` terminates having visited exactly A and B once
each.  (In this embedding `getAncestors` is total by construction; the
source recursion terminates because `generation` strictly increases and is
capped by `maxGenerations`, which the fuel argument mirrors exactly.) -/
theorem C6_cycle_safety :
    (∀ (s : FamilyDataStore) (personId : String) (maxGenerations : Nat),
      (getAncestorsState s personId maxGenerations).visited.Nodup) ∧
    (getAncestorsState cycleStore "A" 10).visited = ["A", "B"] :=
  ⟨getAncestorsState_visited_nodup, by decide⟩

/-!
## C10: the ancestor list is not de-duplicated
-/

/-- C10 counterexample: on the diamond store the ancestor list contains the
shared grandparent D twice (the claim says the result list never repeats an
id), and on the cyclic store the result contains the root itself (the claim
says it never does). -/
theorem C10_counterexample :
    ¬ ((getAncestors diamondStore "A" 10).map (fun e => e.person.id)).Nodup ∧
    "A" ∈ (getAncestors cycleStore "A" 10).map (fun e => e.person.id) := by
  constructor
  · decide
  · decide

/-- C10 amended: only the recursive expansion of a node is guarded by the
visited set; the result list receives one entry per traversed parent edge
and is not de-duplicated, so converging paths repeat an ancestor and a
cycle back to the root puts the root itself in the list.  Concretely, the
diamond store yields B, D, C, D (D twice, at generation 2 via both paths)
and the cyclic store yields B then the root A at generation 2. -/
theorem C10_amended_duplicates :
    getAncestors diamondStore "A" 10 =
      [ ⟨⟨"B", "B", ["D"], [], ["A"]⟩, 1⟩, ⟨⟨"D", "D", [], [], ["B", "C"]⟩, 2⟩
      , ⟨⟨"C", "C", ["D"], [], ["A"]⟩, 1⟩, ⟨⟨"D", "D", [], [], ["B", "C"]⟩, 2⟩ ] ∧
    getAncestors cycleStore "A" 10 =
      [ ⟨⟨"B", "B", ["A"], [], ["A"]⟩, 1⟩, ⟨⟨"A", "A", ["B"], [], ["B"]⟩, 2⟩ ] := by
  constructor
  · decide
  · decide

/-!
## C7: generation bound of getDescendants
-/

theorem foldl_out_mono {α : Type} (step : TraverseState → α → TraverseState)
    (hstep : ∀ st a, ∃ ext, (step st a).out = st.out ++ ext) :
    ∀ (l : List α) (st : TraverseState), ∃ ext, (l.foldl step st).out = st.out ++ ext := by
  intro l
  induction l with
  | nil => intro st; exact ⟨[], (List.append_nil _).symm⟩
  | cons a rest ih =>
    intro st
    obtain ⟨ext1, h1⟩ := hstep st a
    obtain ⟨ext2, h2⟩ := ih (step st a)
    exact ⟨ext1 ++ ext2, by rw [List.foldl_cons, h2, h1, List.append_assoc]⟩

theorem descGo_out_mono (s : FamilyDataStore) :
    ∀ (fuel : Nat) (id : String) (generation : Nat) (st : TraverseState),
      ∃ ext, (descGo s fuel id generation st).out = st.out ++ ext := by
  intro fuel
  induction fuel with
  | zero => intro id generation st; exact ⟨[], (List.append_nil _).symm⟩
  | succ n ih =>
    intro id generation st
    rw [descGo]
    by_cases hv : id ∈ st.visited
    · rw [if_pos hv]; exact ⟨[], (List.append_nil _).symm⟩
    · rw [if_neg hv]
      cases hm : mapGet s.people id with
      | none => exact ⟨[], (List.append_nil _).symm⟩
      | some person =>
        refine foldl_out_mono _ ?_ person.children _
        intro st2 childId
        cases hc : mapGet s.people childId with
        | none => exact ⟨[], (List.append_nil _).symm⟩
        | some child =>
          obtain ⟨ext, hext⟩ := ih childId (generation + 1)
            { st2 with out := st2.out ++ [⟨child, generation⟩] }
          exact ⟨⟨child, generation⟩ :: ext, by
            rw [hext]
            simp⟩

theorem descStep_mono (s : FamilyDataStore) (fuel generation : Nat)
    (st2 : TraverseState) (cid : String) :
    ∃ ext, (match mapGet s.people cid with
      | none => st2
      | some c => descGo s fuel cid (generation + 1)
          { st2 with out := st2.out ++ [⟨c, generation⟩] } : TraverseState).out
      = st2.out ++ ext := by
  cases hc : mapGet s.people cid with
  | none => exact ⟨[], (List.append_nil _).symm⟩
  | some c =>
    obtain ⟨ext, hext⟩ := descGo_out_mono s fuel cid (generation + 1)
      { st2 with out := st2.out ++ [⟨c, generation⟩] }
    refine ⟨⟨c, generation⟩ :: ext, ?_⟩
    show (descGo s fuel cid (generation + 1)
      { st2 with out := st2.out ++ [⟨c, generation⟩] }).out = st2.out ++ ⟨c, generation⟩ :: ext
    rw [hext]
    simp

theorem foldl_mem_out {α : Type} (e : GenPerson) (step : TraverseState → α → TraverseState)
    (hmono : ∀ st x, ∃ ext, (step st x).out = st.out ++ ext) (a : α)
    (hpush : ∀ st, ∃ ext, (step st a).out = st.out ++ e :: ext) :
    ∀ (l : List α) (st : TraverseState), a ∈ l → e ∈ (l.foldl step st).out := by
  intro l
  induction l with
  | nil => intro st h; exact absurd h (List.not_mem_nil a)
  | cons b rest ih =>
    intro st hmem
    rw [List.foldl_cons]
    rcases List.mem_cons.mp hmem with heq | hmem2
    · subst heq
      obtain ⟨ext1, h1⟩ := hpush st
      obtain ⟨ext2, h2⟩ := foldl_out_mono step hmono rest (step st a)
      rw [h2, h1]
      simp
    · exact ih (step st b) hmem2

theorem descGo_direct_children (s : FamilyDataStore) (n : Nat) (root : String)
    (person : Person) (hres : mapGet s.people root = some person)
    (st : TraverseState) (hv : root ∉ st.visited)
    (childId : String) (hc : childId ∈ person.children)
    (child : Person) (hchild : mapGet s.people childId = some child) (generation : Nat) :
    (⟨child, generation⟩ : GenPerson) ∈ (descGo s (n + 1) root generation st).out := by
  rw [descGo, if_neg hv, hres]
  refine foldl_mem_out ⟨child, generation⟩ _
    (fun st2 cid => descStep_mono s n generation st2 cid) childId ?_ person.children _ hc
  intro st2
  show ∃ ext, (match mapGet s.people childId with
      | none => st2
      | some c => descGo s n childId (generation + 1)
          { st2 with out := st2.out ++ [⟨c, generation⟩] } : TraverseState).out
      = st2.out ++ ⟨child, generation⟩ :: ext
  rw [hchild]
  obtain ⟨ext, hext⟩ := descGo_out_mono s n childId (generation + 1)
    { st2 with out := st2.out ++ [⟨child, generation⟩] }
  refine ⟨ext, ?_⟩
  show (descGo s n childId (generation + 1)
    { st2 with out := st2.out ++ [⟨child, generation⟩] }).out
    = st2.out ++ ⟨child, generation⟩ :: ext
  rw [hext]
  simp

theorem descGo_out_good (s : FamilyDataStore) (root : String) (mg : Nat) :
    ∀ (fuel : Nat) (id : String) (d : Nat) (st : TraverseState),
      fuel + d = mg →
      ChildPath s root id d →
      (∀ e ∈ st.out, 1 ≤ e.generation ∧ e.generation ≤ mg ∧
        ChildPath s root e.person.id e.generation) →
      ∀ e ∈ (descGo s fuel id (d + 1) st).out,
        1 ≤ e.generation ∧ e.generation ≤ mg ∧ ChildPath s root e.person.id e.generation := by
  intro fuel
  induction fuel with
  | zero => intro id d st _ _ hout; exact hout
  | succ n ih =>
    intro id d st harith hpath hout
    rw [descGo]
    by_cases hv : id ∈ st.visited
    · rw [if_pos hv]; exact hout
    · rw [if_neg hv]
      cases hm : mapGet s.people id with
      | none => exact hout
      | some person =>
        refine foldl_invariant
          (fun st2 : TraverseState => ∀ e ∈ st2.out,
            1 ≤ e.generation ∧ e.generation ≤ mg ∧ ChildPath s root e.person.id e.generation)
          _ person.children ?_ _ hout
        intro st2 childId hcmem h2
        cases hc : mapGet s.people childId with
        | none => exact h2
        | some child =>
          have hcid : child.id = childId := mapGet_eq_some_id _ _ _ hc
          have hpath2 : ChildPath s root childId (d + 1) := ChildPath.step hpath hm hcmem
          have harith2 : n + (d + 1) = mg := by omega
          refine ih childId (d + 1) _ harith2 hpath2 ?_
          intro e he
          rcases List.mem_append.mp he with he2 | he2
          · exact h2 e he2
          · have he3 : e = ⟨child, d + 1⟩ := by simpa using he2
            subst he3
            refine ⟨?_, ?_, ?_⟩
            · show 1 ≤ d + 1
              omega
            · show d + 1 ≤ mg
              omega
            · show ChildPath s root child.id (d + 1)
              rw [hcid]
              exact hpath2

/-- C7: every entry of `getDescendants(id, 2)` carries generation tag 1 or
2, and that tag is the length of an actual child-edge path from the root to
the entry's person — no returned person is more than two hops below the
root however deep the graph is; and every resolving direct child of the
root is in the result tagged with generation 1. -/
theorem C7_generation_bound (s : FamilyDataStore) (personId : String) :
    (∀ e ∈ getDescendants s personId 2,
      (e.generation = 1 ∨ e.generation = 2) ∧
        ChildPath s personId e.person.id e.generation) ∧
    (∀ person, mapGet s.people personId = some person →
      ∀ childId ∈ person.children, ∀ child, mapGet s.people childId = some child →
        (⟨child, 1⟩ : GenPerson) ∈ getDescendants s personId 2) := by
  constructor
  · intro e he
    have h := descGo_out_good s personId 2 2 personId 0 ⟨[], []⟩ rfl
      (ChildPath.refl personId) (by intro e2 he2; exact absurd he2 (List.not_mem_nil e2))
      e he
    exact ⟨by omega, h.2.2⟩
  · intro person hres childId hc child hchild
    exact descGo_direct_children s 1 personId person hres ⟨[], []⟩
      (List.not_mem_nil personId) childId hc child hchild 1

/-- Witness for C7 on the four-deep chain store: B is returned at
generation 1 with the matching facts, and B is a direct child of the root
returned at generation 1. -/
theorem C7_generation_bound_witness :
    ((⟨⟨"B", "B", ["A"], [], ["C"]⟩, 1⟩ : GenPerson) ∈ getDescendants deepStore "A" 2 ∧
      (((⟨⟨"B", "B", ["A"], [], ["C"]⟩, 1⟩ : GenPerson).generation = 1 ∨
        (⟨⟨"B", "B", ["A"], [], ["C"]⟩, 1⟩ : GenPerson).generation = 2) ∧
        ChildPath deepStore "A" (⟨⟨"B", "B", ["A"], [], ["C"]⟩, 1⟩ : GenPerson).person.id
          (⟨⟨"B", "B", ["A"], [], ["C"]⟩, 1⟩ : GenPerson).generation)) ∧
    (⟨⟨"B", "B", ["A"], [], ["C"]⟩, 1⟩ : GenPerson) ∈ getDescendants deepStore "A" 2 :=
  ⟨⟨by decide, (C7_generation_bound deepStore "A").1 _ (by decide)⟩,
    (C7_generation_bound deepStore "A").2 ⟨"A", "A", [], [], ["B"]⟩ (by decide)
      "B" (by decide) ⟨"B", "B", ["A"], [], ["C"]⟩ (by decide)⟩

/-!
## C1/C2: bidirectional linkage established by the js linker
-/

theorem resolves_some (ps : List Person) (x : String) (X : Person)
    (hX : mapGet ps x = some X) : resolves ps (some x) = some x := by
  simp [resolves, hX]

/-- The two pushes `child.parents.push(x); x.children.push(child.id)` (one
side of the child-linking body) put `x` into the child's parents and the
child into `x`'s children, whatever the two ids are. -/
theorem updAll_pair_links (ps : List Person) (childId x : String)
    (P : Person) (hP : mapGet ps childId = some P)
    (X : Person) (hX : mapGet ps x = some X) :
    (∃ P2, mapGet (updAll (updAll ps childId (addParent x)) x (addChild childId)) childId
        = some P2 ∧ x ∈ P2.parents) ∧
    (∃ X2, mapGet (updAll (updAll ps childId (addParent x)) x (addChild childId)) x
        = some X2 ∧ childId ∈ X2.children) := by
  have hga : ∀ p : Person, (addParent x p).id = p.id := fun p => rfl
  have hgc : ∀ p : Person, (addChild childId p).id = p.id := fun p => rfl
  have hA := mapGet_updAll ps childId (addParent x) hga
  have hB := mapGet_updAll (updAll ps childId (addParent x)) x (addChild childId) hgc
  by_cases hxc : childId = x
  · subst hxc
    constructor
    · refine ⟨addChild childId (addParent childId P), ?_, ?_⟩
      · rw [hB, if_pos rfl, hA, if_pos rfl, hP]
        rfl
      · show childId ∈ P.parents ++ [childId]
        simp
    · refine ⟨addChild childId (addParent childId P), ?_, ?_⟩
      · rw [hB, if_pos rfl, hA, if_pos rfl, hP]
        rfl
      · show childId ∈ (P.parents ++ [childId], P.children ++ [childId]).2
        simp
  · constructor
    · refine ⟨addParent x P, ?_, ?_⟩
      · rw [hB, if_neg hxc, hA, if_pos rfl, hP]
        rfl
      · show x ∈ P.parents ++ [x]
        simp
    · refine ⟨addChild childId X, ?_, ?_⟩
      · rw [hB, if_pos rfl, hA, if_neg (fun hh => hxc hh.symm), hX]
        rfl
      · show childId ∈ X.children ++ [childId]
        simp

/-- A grown store keeps an established parents-membership. -/
theorem storeGrow_keeps_parent {ps qs : List Person} (hg : storeGrow ps qs)
    (j x : String) (h : ∃ P, mapGet ps j = some P ∧ x ∈ P.parents) :
    ∃ P, mapGet qs j = some P ∧ x ∈ P.parents := by
  obtain ⟨P, hP, hx⟩ := h
  obtain ⟨Q, hQ, hgrow⟩ := hg j P hP
  exact ⟨Q, hQ, hgrow.2.1 x hx⟩

/-- A grown store keeps an established children-membership. -/
theorem storeGrow_keeps_child {ps qs : List Person} (hg : storeGrow ps qs)
    (j x : String) (h : ∃ P, mapGet ps j = some P ∧ x ∈ P.children) :
    ∃ P, mapGet qs j = some P ∧ x ∈ P.children := by
  obtain ⟨P, hP, hx⟩ := h
  obtain ⟨Q, hQ, hgrow⟩ := hg j P hP
  exact ⟨Q, hQ, hgrow.2.2.1 x hx⟩

/-- A grown store keeps an established spouse-entry membership. -/
theorem storeGrow_keeps_spouse {ps qs : List Person} (hg : storeGrow ps qs)
    (j : String) (e : SpouseEntry) (h : ∃ P, mapGet ps j = some P ∧ e ∈ P.spouses) :
    ∃ P, mapGet qs j = some P ∧ e ∈ P.spouses := by
  obtain ⟨P, hP, hx⟩ := h
  obtain ⟨Q, hQ, hgrow⟩ := hg j P hP
  exact ⟨Q, hQ, hgrow.2.2.2 e hx⟩

/-- A grown store keeps resolvability. -/
theorem storeGrow_keeps_some {ps qs : List Person} (hg : storeGrow ps qs)
    (j : String) (P : Person) (hP : mapGet ps j = some P) :
    ∃ Q, mapGet qs j = some Q := by
  obtain ⟨Q, hQ, _⟩ := hg j P hP
  exact ⟨Q, hQ⟩

/-- One `jsLinkChildStep` with the husband resolved links husband and child
both ways (the wife half of the step can only grow the lists further). -/
theorem jsLinkChildStep_links_husband (wife? : Option String) (ps : List Person)
    (childId h : String)
    (P : Person) (hP : mapGet ps childId = some P)
    (H : Person) (hH : mapGet ps h = some H) :
    (∃ P2, mapGet (jsLinkChildStep (some h) wife? ps childId) childId = some P2 ∧
      h ∈ P2.parents) ∧
    (∃ H2, mapGet (jsLinkChildStep (some h) wife? ps childId) h = some H2 ∧
      childId ∈ H2.children) := by
  have hest := updAll_pair_links ps childId h P hP H hH
  have hgrow := storeGrow_linkSide wife? childId
    (updAll (updAll ps childId (addParent h)) h (addChild childId))
  exact ⟨storeGrow_keeps_parent hgrow childId h hest.1,
    storeGrow_keeps_child hgrow h childId hest.2⟩

/-- One `jsLinkChildStep` with the wife resolved links wife and child both
ways (the husband half runs first and only grows the lists). -/
theorem jsLinkChildStep_links_wife (husband? : Option String) (ps : List Person)
    (childId w : String)
    (P : Person) (hP : mapGet ps childId = some P)
    (W : Person) (hW : mapGet ps w = some W) :
    (∃ P2, mapGet (jsLinkChildStep husband? (some w) ps childId) childId = some P2 ∧
      w ∈ P2.parents) ∧
    (∃ W2, mapGet (jsLinkChildStep husband? (some w) ps childId) w = some W2 ∧
      childId ∈ W2.children) := by
  have hgrow := storeGrow_linkSide husband? childId ps
  obtain ⟨P1, hP1, _⟩ := hgrow childId P hP
  obtain ⟨W1, hW1, _⟩ := hgrow w W hW
  exact updAll_pair_links _ childId w P1 hP1 W1 hW1

theorem foldl_childStep_links_husband (wife? : Option String) (h : String) :
    ∀ (cs : List String) (ps : List Person) (c : String), c ∈ cs →
      ∀ P, mapGet ps c = some P → ∀ H, mapGet ps h = some H →
      (∃ P2, mapGet (cs.foldl (jsLinkChildStep (some h) wife?) ps) c = some P2 ∧
        h ∈ P2.parents) ∧
      (∃ H2, mapGet (cs.foldl (jsLinkChildStep (some h) wife?) ps) h = some H2 ∧
        c ∈ H2.children) := by
  intro cs
  induction cs with
  | nil => intro ps c hmem; exact absurd hmem (List.not_mem_nil c)
  | cons a rest ih =>
    intro ps c hmem P hP H hH
    rw [List.foldl_cons]
    have hgrowRest := storeGrow_foldl (jsLinkChildStep (some h) wife?)
      (storeGrow_jsLinkChildStep (some h) wife?) rest
    rcases List.mem_cons.mp hmem with heq | hmem2
    · subst heq
      have hest := jsLinkChildStep_links_husband wife? ps c h P hP H hH
      exact ⟨storeGrow_keeps_parent (hgrowRest _) c h hest.1,
        storeGrow_keeps_child (hgrowRest _) h c hest.2⟩
    · have hgrow1 := storeGrow_jsLinkChildStep (some h) wife? ps a
      obtain ⟨P1, hP1, _⟩ := hgrow1 c P hP
      obtain ⟨H1, hH1, _⟩ := hgrow1 h H hH
      exact ih _ c hmem2 P1 hP1 H1 hH1

theorem foldl_childStep_links_wife (husband? : Option String) (w : String) :
    ∀ (cs : List String) (ps : List Person) (c : String), c ∈ cs →
      ∀ P, mapGet ps c = some P → ∀ W, mapGet ps w = some W →
      (∃ P2, mapGet (cs.foldl (jsLinkChildStep husband? (some w)) ps) c = some P2 ∧
        w ∈ P2.parents) ∧
      (∃ W2, mapGet (cs.foldl (jsLinkChildStep husband? (some w)) ps) w = some W2 ∧
        c ∈ W2.children) := by
  intro cs
  induction cs with
  | nil => intro ps c hmem; exact absurd hmem (List.not_mem_nil c)
  | cons a rest ih =>
    intro ps c hmem P hP W hW
    rw [List.foldl_cons]
    have hgrowRest := storeGrow_foldl (jsLinkChildStep husband? (some w))
      (storeGrow_jsLinkChildStep husband? (some w)) rest
    rcases List.mem_cons.mp hmem with heq | hmem2
    · subst heq
      have hest := jsLinkChildStep_links_wife husband? ps c w P hP W hW
      exact ⟨storeGrow_keeps_parent (hgrowRest _) c w hest.1,
        storeGrow_keeps_child (hgrowRest _) w c hest.2⟩
    · have hgrow1 := storeGrow_jsLinkChildStep husband? (some w) ps a
      obtain ⟨P1, hP1, _⟩ := hgrow1 c P hP
      obtain ⟨W1, hW1, _⟩ := hgrow1 w W hW
      exact ih _ c hmem2 P1 hP1 W1 hW1

/-- Processing one family establishes, for each resolving child and each
resolving spouse-of-record, both directions of the parent/child link. -/
theorem jsLinkFamily_links (ps : List Person) (famData : Family)
    (c : String) (hc : c ∈ famData.children)
    (P : Person) (hP : mapGet ps c = some P) :
    (∀ h, famData.husband = some h → ∀ H, mapGet ps h = some H →
      (∃ P2, mapGet (jsLinkFamily ps famData) c = some P2 ∧ h ∈ P2.parents) ∧
      (∃ H2, mapGet (jsLinkFamily ps famData) h = some H2 ∧ c ∈ H2.children)) ∧
    (∀ w, famData.wife = some w → ∀ W, mapGet ps w = some W →
      (∃ P2, mapGet (jsLinkFamily ps famData) c = some P2 ∧ w ∈ P2.parents) ∧
      (∃ W2, mapGet (jsLinkFamily ps famData) w = some W2 ∧ c ∈ W2.children)) := by
  have hcf : c ∈ famData.children.filter (fun id => (mapGet ps id).isSome) := by
    rw [List.mem_filter]
    exact ⟨hc, by rw [hP]; rfl⟩
  constructor
  · intro h hh H hH
    have hres : resolves ps famData.husband = some h := by
      rw [hh]
      exact resolves_some ps h H hH
    have key : jsLinkFamily ps famData =
        (famData.children.filter (fun id => (mapGet ps id).isSome)).foldl
          (jsLinkChildStep (some h) (resolves ps famData.wife))
          (jsLinkSpouses (some h) (resolves ps famData.wife)
            famData.marriage famData.divorce ps) := by
      show (famData.children.filter (fun id => (mapGet ps id).isSome)).foldl
          (jsLinkChildStep (resolves ps famData.husband) (resolves ps famData.wife))
          (jsLinkSpouses (resolves ps famData.husband) (resolves ps famData.wife)
            famData.marriage famData.divorce ps) = _
      rw [hres]
    rw [key]
    have hgrow0 := storeGrow_jsLinkSpouses (some h) (resolves ps famData.wife)
      famData.marriage famData.divorce ps
    obtain ⟨P1, hP1, _⟩ := hgrow0 c P hP
    obtain ⟨H1, hH1, _⟩ := hgrow0 h H hH
    exact foldl_childStep_links_husband (resolves ps famData.wife) h _ _ c hcf P1 hP1 H1 hH1
  · intro w hw W hW
    have hres : resolves ps famData.wife = some w := by
      rw [hw]
      exact resolves_some ps w W hW
    have key : jsLinkFamily ps famData =
        (famData.children.filter (fun id => (mapGet ps id).isSome)).foldl
          (jsLinkChildStep (resolves ps famData.husband) (some w))
          (jsLinkSpouses (resolves ps famData.husband) (some w)
            famData.marriage famData.divorce ps) := by
      show (famData.children.filter (fun id => (mapGet ps id).isSome)).foldl
          (jsLinkChildStep (resolves ps famData.husband) (resolves ps famData.wife))
          (jsLinkSpouses (resolves ps famData.husband) (resolves ps famData.wife)
            famData.marriage famData.divorce ps) = _
      rw [hres]
    rw [key]
    have hgrow0 := storeGrow_jsLinkSpouses (resolves ps famData.husband) (some w)
      famData.marriage famData.divorce ps
    obtain ⟨P1, hP1, _⟩ := hgrow0 c P hP
    obtain ⟨W1, hW1, _⟩ := hgrow0 w W hW
    exact foldl_childStep_links_wife (resolves ps famData.husband) w _ _ c hcf P1 hP1 W1 hW1

theorem jsLinkFamilies_split (people : List Person) (fams : List Family)
    (famData : Family) (hf : famData ∈ fams) :
    ∃ l1 l2, fams = l1 ++ famData :: l2 ∧
      jsLinkFamilies people fams =
        jsLinkFamilies (jsLinkFamily (jsLinkFamilies people l1) famData) l2 := by
  obtain ⟨l1, l2, rfl⟩ := List.append_of_mem hf
  refine ⟨l1, l2, rfl, ?_⟩
  show (l1 ++ famData :: l2).foldl jsLinkFamily people = _
  rw [List.foldl_append, List.foldl_cons]
  rfl

/-- C1 (amended, js linker): after `buildFamilyTree`'s linking loop, for
every family record F and every id c in F's children list that resolves in
the people list: if F's husband h resolves then h is in c's parents and c
is in h's children, and symmetrically for F's wife.  This comes from the
family record alone — the js linker never reads FAMC — so it holds
regardless of which side of the source was well-formed. -/
theorem C1_roundtrip_linkage_js (people : List Person) (fams : List Family)
    (famData : Family) (hf : famData ∈ fams)
    (c : String) (hc : c ∈ famData.children)
    (P0 : Person) (hP0 : mapGet people c = some P0) :
    (∀ h, famData.husband = some h → ∀ H0, mapGet people h = some H0 →
      (∃ P, mapGet (jsLinkFamilies people fams) c = some P ∧ h ∈ P.parents) ∧
      (∃ H, mapGet (jsLinkFamilies people fams) h = some H ∧ c ∈ H.children)) ∧
    (∀ w, famData.wife = some w → ∀ W0, mapGet people w = some W0 →
      (∃ P, mapGet (jsLinkFamilies people fams) c = some P ∧ w ∈ P.parents) ∧
      (∃ W, mapGet (jsLinkFamilies people fams) w = some W ∧ c ∈ W.children)) := by
  obtain ⟨l1, l2, rfl, hsplit⟩ := jsLinkFamilies_split people fams famData hf
  rw [hsplit]
  have hgrow1 := storeGrow_jsLinkFamilies people l1
  obtain ⟨P1, hP1, _⟩ := hgrow1 c P0 hP0
  have hgrow2 := storeGrow_jsLinkFamilies
    (jsLinkFamily (jsLinkFamilies people l1) famData) l2
  constructor
  · intro h hh H0 hH0
    obtain ⟨H1, hH1, _⟩ := hgrow1 h H0 hH0
    have hest := (jsLinkFamily_links (jsLinkFamilies people l1) famData c hc P1 hP1).1
      h hh H1 hH1
    exact ⟨storeGrow_keeps_parent hgrow2 c h hest.1,
      storeGrow_keeps_child hgrow2 h c hest.2⟩
  · intro w hw W0 hW0
    obtain ⟨W1, hW1, _⟩ := hgrow1 w W0 hW0
    have hest := (jsLinkFamily_links (jsLinkFamilies people l1) famData c hc P1 hP1).2
      w hw W1 hW1
    exact ⟨storeGrow_keeps_parent hgrow2 c w hest.1,
      storeGrow_keeps_child hgrow2 w c hest.2⟩

/-- Witness for C1 on the concrete three-person one-family dataset. -/
theorem C1_roundtrip_linkage_js_witness :
    (∃ P, mapGet (jsLinkFamilies c3People c3Families) "@C@" = some P ∧ "@H@" ∈ P.parents) ∧
    (∃ H, mapGet (jsLinkFamilies c3People c3Families) "@H@" = some H ∧ "@C@" ∈ H.children) :=
  (C1_roundtrip_linkage_js c3People c3Families
      { id := "@F1@", husband := some "@H@", wife := some "@W@", children := ["@C@"] }
      (by decide) "@C@" (by decide) ⟨"@C@", "C", [], [], []⟩ (by decide)).1
    "@H@" rfl ⟨"@H@", "H", [], [], []⟩ (by decide)

/-- C1 counterexample (ts pipeline): from a source whose family record is
well-formed (HUSB and CHIL present) but whose child record carries no FAMC,
the converter-plus-buildIndex pipeline leaves the child's parents empty
while the husband's children does list the child — the claimed invariant
fails on the FAMC-missing side. -/
theorem C1_ts_counterexample :
    (convertToStructuredData c1IndiRecords c1FamRecords).2 =
      [ { id := "@F1@", husband := some "@H@", wife := none, children := ["@P@"],
          marriage := none, divorce := none } ] ∧
    (∃ pp, mapGet c1TsStore.people "@P@" = some pp ∧ pp.parents = [] ∧
      "@H@" ∉ pp.parents) ∧
    (∃ hp, mapGet c1TsStore.people "@H@" = some hp ∧ "@P@" ∈ hp.children) := by
  refine ⟨by decide, ⟨⟨"@P@", "Paul Test", [], [], []⟩, by decide, rfl, by decide⟩,
    ⟨⟨"@H@", "Henry Test", [], [], ["@P@"]⟩, by decide, by decide⟩⟩

/-- The spouse-linking block pushes the mutual entries, whatever the two
ids are. -/
theorem jsLinkSpouses_establishes (ps : List Person) (h w : String)
    (m d : Option Event)
    (H : Person) (hH : mapGet ps h = some H) (W : Person) (hW : mapGet ps w = some W) :
    (∃ H2, mapGet (jsLinkSpouses (some h) (some w) m d ps) h = some H2 ∧
      (⟨w, m, d⟩ : SpouseEntry) ∈ H2.spouses) ∧
    (∃ W2, mapGet (jsLinkSpouses (some h) (some w) m d ps) w = some W2 ∧
      (⟨h, m, d⟩ : SpouseEntry) ∈ W2.spouses) := by
  have hg : ∀ (e : SpouseEntry) (p : Person), (addSpouse e p).id = p.id := fun _ _ => rfl
  have hA := mapGet_updAll ps h (addSpouse ⟨w, m, d⟩) (hg _)
  have hB := mapGet_updAll (updAll ps h (addSpouse ⟨w, m, d⟩)) w (addSpouse ⟨h, m, d⟩) (hg _)
  show (∃ H2, mapGet (updAll (updAll ps h (addSpouse ⟨w, m, d⟩)) w (addSpouse ⟨h, m, d⟩)) h
      = some H2 ∧ (⟨w, m, d⟩ : SpouseEntry) ∈ H2.spouses) ∧
    (∃ W2, mapGet (updAll (updAll ps h (addSpouse ⟨w, m, d⟩)) w (addSpouse ⟨h, m, d⟩)) w
      = some W2 ∧ (⟨h, m, d⟩ : SpouseEntry) ∈ W2.spouses)
  by_cases hhw : h = w
  · subst hhw
    constructor
    · refine ⟨addSpouse ⟨h, m, d⟩ (addSpouse ⟨h, m, d⟩ H), ?_, ?_⟩
      · rw [hB, if_pos rfl, hA, if_pos rfl, hH]
        rfl
      · show (⟨h, m, d⟩ : SpouseEntry) ∈ H.spouses ++ [⟨h, m, d⟩] ++ [⟨h, m, d⟩]
        simp
    · refine ⟨addSpouse ⟨h, m, d⟩ (addSpouse ⟨h, m, d⟩ H), ?_, ?_⟩
      · rw [hB, if_pos rfl, hA, if_pos rfl, hH]
        rfl
      · show (⟨h, m, d⟩ : SpouseEntry) ∈ H.spouses ++ [⟨h, m, d⟩] ++ [⟨h, m, d⟩]
        simp
  · constructor
    · refine ⟨addSpouse ⟨w, m, d⟩ H, ?_, ?_⟩
      · rw [hB, if_neg hhw, hA, if_pos rfl, hH]
        rfl
      · show (⟨w, m, d⟩ : SpouseEntry) ∈ H.spouses ++ [⟨w, m, d⟩]
        simp
    · refine ⟨addSpouse ⟨h, m, d⟩ W, ?_, ?_⟩
      · rw [hB, if_pos rfl, hA, if_neg (fun hc => hhw hc.symm), hW]
        rfl
      · show (⟨h, m, d⟩ : SpouseEntry) ∈ W.spouses ++ [⟨h, m, d⟩]
        simp

/-- Processing one family whose husband and wife both resolve pushes the
mutual spouse entries, which the rest of the family's processing only
preserves. -/
theorem jsLinkFamily_spouses (ps : List Person) (famData : Family)
    (h w : String) (hh : famData.husband = some h) (hw : famData.wife = some w)
    (H : Person) (hH : mapGet ps h = some H) (W : Person) (hW : mapGet ps w = some W) :
    (∃ H2, mapGet (jsLinkFamily ps famData) h = some H2 ∧
      (⟨w, famData.marriage, famData.divorce⟩ : SpouseEntry) ∈ H2.spouses) ∧
    (∃ W2, mapGet (jsLinkFamily ps famData) w = some W2 ∧
      (⟨h, famData.marriage, famData.divorce⟩ : SpouseEntry) ∈ W2.spouses) := by
  have hresH : resolves ps famData.husband = some h := by
    rw [hh]
    exact resolves_some ps h H hH
  have hresW : resolves ps famData.wife = some w := by
    rw [hw]
    exact resolves_some ps w W hW
  have key : jsLinkFamily ps famData =
      (famData.children.filter (fun id => (mapGet ps id).isSome)).foldl
        (jsLinkChildStep (some h) (some w))
        (jsLinkSpouses (some h) (some w) famData.marriage famData.divorce ps) := by
    show (famData.children.filter (fun id => (mapGet ps id).isSome)).foldl
        (jsLinkChildStep (resolves ps famData.husband) (resolves ps famData.wife))
        (jsLinkSpouses (resolves ps famData.husband) (resolves ps famData.wife)
          famData.marriage famData.divorce ps) = _
    rw [hresH, hresW]
  rw [key]
  have hest := jsLinkSpouses_establishes ps h w famData.marriage famData.divorce H hH W hW
  have hgrow := storeGrow_foldl (jsLinkChildStep (some h) (some w))
    (storeGrow_jsLinkChildStep (some h) (some w))
    (famData.children.filter (fun id => (mapGet ps id).isSome))
  exact ⟨storeGrow_keeps_spouse (hgrow _) h _ hest.1,
    storeGrow_keeps_spouse (hgrow _) w _ hest.2⟩

/-- C2 (amended, js linker): after linking, for every family whose husband
and wife both resolve, the husband's spouse list holds an entry for the
wife carrying the family's marriage and divorce data, and symmetrically. -/
theorem C2_mutual_spouses_js (people : List Person) (fams : List Family)
    (famData : Family) (hf : famData ∈ fams)
    (h w : String) (hh : famData.husband = some h) (hw : famData.wife = some w)
    (H0 : Person) (hH0 : mapGet people h = some H0)
    (W0 : Person) (hW0 : mapGet people w = some W0) :
    (∃ H, mapGet (jsLinkFamilies people fams) h = some H ∧
      (⟨w, famData.marriage, famData.divorce⟩ : SpouseEntry) ∈ H.spouses) ∧
    (∃ W, mapGet (jsLinkFamilies people fams) w = some W ∧
      (⟨h, famData.marriage, famData.divorce⟩ : SpouseEntry) ∈ W.spouses) := by
  obtain ⟨l1, l2, rfl, hsplit⟩ := jsLinkFamilies_split people fams famData hf
  rw [hsplit]
  have hgrow1 := storeGrow_jsLinkFamilies people l1
  obtain ⟨H1, hH1, _⟩ := hgrow1 h H0 hH0
  obtain ⟨W1, hW1, _⟩ := hgrow1 w W0 hW0
  have hest := jsLinkFamily_spouses (jsLinkFamilies people l1) famData h w hh hw
    H1 hH1 W1 hW1
  have hgrow2 := storeGrow_jsLinkFamilies
    (jsLinkFamily (jsLinkFamilies people l1) famData) l2
  exact ⟨storeGrow_keeps_spouse hgrow2 h _ hest.1,
    storeGrow_keeps_spouse hgrow2 w _ hest.2⟩

/-- Witness for C2 on the concrete three-person one-family dataset. -/
theorem C2_mutual_spouses_js_witness :
    (∃ H, mapGet (jsLinkFamilies c3People c3Families) "@H@" = some H ∧
      (⟨"@W@", none, none⟩ : SpouseEntry) ∈ H.spouses) ∧
    (∃ W, mapGet (jsLinkFamilies c3People c3Families) "@W@" = some W ∧
      (⟨"@H@", none, none⟩ : SpouseEntry) ∈ W.spouses) :=
  C2_mutual_spouses_js c3People c3Families
    { id := "@F1@", husband := some "@H@", wife := some "@W@", children := ["@C@"] }
    (by decide) "@H@" "@W@" rfl rfl
    ⟨"@H@", "H", [], [], []⟩ (by decide) ⟨"@W@", "W", [], [], []⟩ (by decide)

/-- C2 counterexample (ts pipeline): a family record with both HUSB and
WIFE (and a marriage event), whose individuals both resolve but carry no
FAMS pointers, produces two people with empty spouse lists — the ts spouse
linkage depends entirely on each individual's own FAMS, and even when FAMS
is present the ts `Spouse` shape never carries divorce data. -/
theorem C2_ts_counterexample :
    (convertToStructuredData c2IndiRecords c2FamRecords).2 =
      [ { id := "@F1@", husband := some "@H@", wife := some "@W@", children := [],
          marriage := some { date := some "1 JAN 1900", place := none }, divorce := none } ] ∧
    (∃ hp, mapGet c2TsStore.people "@H@" = some hp ∧ hp.spouses = []) ∧
    (∃ wp, mapGet c2TsStore.people "@W@" = some wp ∧ wp.spouses = []) := by
  refine ⟨by decide, ⟨⟨"@H@", "Henry Test", [], [], []⟩, by decide, rfl⟩,
    ⟨⟨"@W@", "Wilma Test", [], [], []⟩, by decide, rfl⟩⟩

/-!
## C3: idempotence of linkage
-/

theorem pushChildrenDedup_eq_of_subset (childIds : List String) :
    ∀ l : List String, (∀ c ∈ childIds, c ∈ l) → pushChildrenDedup l childIds = l := by
  induction childIds with
  | nil => intro l _; rfl
  | cons a rest ih =>
    intro l hsub
    rw [pushChildrenDedup, List.foldl_cons,
      if_pos (hsub a (List.mem_cons_self a rest))]
    exact ih l (fun c hc => hsub c (List.mem_cons_of_mem a hc))

theorem pushChildrenDedup_mem_new (childIds : List String) :
    ∀ (l : List String) (c : String), c ∈ childIds → c ∈ pushChildrenDedup l childIds := by
  induction childIds with
  | nil => intro l c h; exact absurd h (List.not_mem_nil c)
  | cons a rest ih =>
    intro l c hmem
    rw [pushChildrenDedup, List.foldl_cons]
    rcases List.mem_cons.mp hmem with heq | hmem2
    · subst heq
      by_cases hc : c ∈ l
      · rw [if_pos hc]
        exact mem_pushChildrenDedup c rest l hc
      · rw [if_neg hc]
        exact mem_pushChildrenDedup c rest (l ++ [c]) (by simp)
    · by_cases hc : a ∈ l
      · rw [if_pos hc]
        exact ih l c hmem2
      · rw [if_neg hc]
        exact ih (l ++ [a]) c hmem2

theorem pushChildrenDedup_nodup (childIds : List String) :
    ∀ l : List String, l.Nodup → (pushChildrenDedup l childIds).Nodup := by
  induction childIds with
  | nil => intro l h; exact h
  | cons a rest ih =>
    intro l h
    rw [pushChildrenDedup, List.foldl_cons]
    by_cases hc : a ∈ l
    · rw [if_pos hc]
      exact ih l h
    · rw [if_neg hc]
      refine ih (l ++ [a]) ?_
      rw [List.nodup_append]
      exact ⟨h, List.nodup_singleton a, by simpa using hc⟩

/-- Every person in the output of one side of `tsLinkFamily` comes from a
person of the input with the same id and no smaller children list, and if
the side names that person, the family's children are all recorded. -/
theorem tsLinkSide_mem (side : Option String) (childIds : List String)
    (qs : List Person) (p2 : Person)
    (hp2 : p2 ∈ (match side with
      | some x => updAll qs x
          (fun p => { p with children := pushChildrenDedup p.children childIds })
      | none => qs)) :
    ∃ p1 ∈ qs, p2.id = p1.id ∧ (∀ x ∈ p1.children, x ∈ p2.children) ∧
      (side = some p1.id → ∀ c ∈ childIds, c ∈ p2.children) := by
  cases side with
  | none =>
    exact ⟨p2, hp2, rfl, fun x hx => hx, fun hcontra => by cases hcontra⟩
  | some x =>
    obtain ⟨p1, hp1, heq⟩ := List.mem_map.mp hp2
    by_cases hid : p1.id = x
    · refine ⟨p1, hp1, ?_, ?_, ?_⟩
      · rw [← heq, if_pos hid]
      · intro y hy
        rw [← heq, if_pos hid]
        exact mem_pushChildrenDedup y childIds p1.children hy
      · intro _ c hc
        rw [← heq, if_pos hid]
        exact pushChildrenDedup_mem_new childIds p1.children c hc
    · refine ⟨p1, hp1, ?_, ?_, ?_⟩
      · rw [← heq, if_neg hid]
      · intro y hy
        rw [← heq, if_neg hid]
        exact hy
      · intro hside
        cases hside
        exact absurd rfl hid
  
theorem tsLinkFamily_mem (ps : List Person) (g : Family) (p2 : Person)
    (hp2 : p2 ∈ tsLinkFamily ps g) :
    ∃ p0 ∈ ps, p2.id = p0.id ∧ (∀ x ∈ p0.children, x ∈ p2.children) := by
  obtain ⟨p1, hp1, hid1, hsub1, _⟩ := tsLinkSide_mem g.wife g.children _ p2 hp2
  obtain ⟨p0, hp0, hid0, hsub0, _⟩ := tsLinkSide_mem g.husband g.children ps p1 hp1
  exact ⟨p0, hp0, hid1.trans hid0, fun x hx => hsub1 x (hsub0 x hx)⟩

/-- One pass of `tsLinkFamily` over a family leaves that family covered. -/
theorem tsLinkFamily_covers (ps : List Person) (f : Family) :
    famCovered (tsLinkFamily ps f) f := by
  intro p2 hp2
  obtain ⟨p1, hp1, hid1, hsub1, hcov1⟩ := tsLinkSide_mem f.wife f.children _ p2 hp2
  obtain ⟨p0, hp0, hid0, hsub0, hcov0⟩ := tsLinkSide_mem f.husband f.children ps p1 hp1
  constructor
  · intro hh c hc
    exact hsub1 c (hcov0 (by rw [hh, hid1, hid0]) c hc)
  · intro hw c hc
    exact hcov1 (by rw [hw, hid1]) c hc

/-- Covering is preserved by processing any other family: children lists
only grow and ids never change. -/
theorem tsLinkFamily_preserves_covered (ps : List Person) (f g : Family)
    (hcov : famCovered ps f) : famCovered (tsLinkFamily ps g) f := by
  intro p2 hp2
  obtain ⟨p0, hp0, hid, hsub⟩ := tsLinkFamily_mem ps g p2 hp2
  constructor
  · intro hh c hc
    exact hsub c ((hcov p0 hp0).1 (by rw [hh, hid]) c hc)
  · intro hw c hc
    exact hsub c ((hcov p0 hp0).2 (by rw [hw, hid]) c hc)

theorem buildIndex_preserves_covered (f : Family) :
    ∀ (fams : List Family) (ps : List Person),
      famCovered ps f → famCovered (buildIndex ps fams) f := by
  intro fams
  induction fams with
  | nil => intro ps h; exact h
  | cons g rest ih =>
    intro ps h
    exact ih (tsLinkFamily ps g) (tsLinkFamily_preserves_covered ps f g h)

theorem buildIndex_covers :
    ∀ (fams : List Family) (ps : List Person) (f : Family), f ∈ fams →
      famCovered (buildIndex ps fams) f := by
  intro fams
  induction fams with
  | nil => intro ps f h; exact absurd h (List.not_mem_nil f)
  | cons g rest ih =>
    intro ps f hmem
    rcases List.mem_cons.mp hmem with heq | hmem2
    · subst heq
      exact buildIndex_preserves_covered f rest (tsLinkFamily ps f)
        (tsLinkFamily_covers ps f)
    · exact ih (tsLinkFamily ps g) f hmem2

theorem updAll_eq_self (ps : List Person) (i : String) (g : Person → Person)
    (h : ∀ p ∈ ps, p.id = i → g p = p) : updAll ps i g = ps := by
  rw [updAll]
  have : ∀ p ∈ ps, (if p.id = i then g p else p) = p := by
    intro p hp
    by_cases hpi : p.id = i
    · rw [if_pos hpi]
      exact h p hp hpi
    · rw [if_neg hpi]
  rw [List.map_congr_left this]
  exact List.map_id ps

theorem tsLinkFamily_eq_of_covered (ps : List Person) (f : Family)
    (hcov : famCovered ps f) : tsLinkFamily ps f = ps := by
  have hhusb : (match f.husband with
      | some x => updAll ps x
          (fun p => { p with children := pushChildrenDedup p.children f.children })
      | none => ps) = ps := by
    cases hh : f.husband with
    | none => rfl
    | some x =>
      refine updAll_eq_self ps x _ ?_
      intro p hp hpi
      have hsub := (hcov p hp).1 (by rw [hh, hpi])
      have : pushChildrenDedup p.children f.children = p.children :=
        pushChildrenDedup_eq_of_subset f.children p.children hsub
      rw [this]
  have hwife : ∀ qs : List Person, famCovered qs f → (match f.wife with
      | some x => updAll qs x
          (fun p => { p with children := pushChildrenDedup p.children f.children })
      | none => qs) = qs := by
    intro qs hcovq
    cases hw : f.wife with
    | none => rfl
    | some x =>
      refine updAll_eq_self qs x _ ?_
      intro p hp hpi
      have hsub := (hcovq p hp).2 (by rw [hw, hpi])
      have : pushChildrenDedup p.children f.children = p.children :=
        pushChildrenDedup_eq_of_subset f.children p.children hsub
      rw [this]
  show (match f.wife with
      | some x => updAll (match f.husband with
          | some y => updAll ps y
              (fun p => { p with children := pushChildrenDedup p.children f.children })
          | none => ps) x
          (fun p => { p with children := pushChildrenDedup p.children f.children })
      | none => (match f.husband with
          | some y => updAll ps y
              (fun p => { p with children := pushChildrenDedup p.children f.children })
          | none => ps)) = ps
  rw [hhusb, hwife ps hcov]

theorem buildIndex_eq_of_covered :
    ∀ (fams : List Family) (ps : List Person),
      (∀ f ∈ fams, famCovered ps f) → buildIndex ps fams = ps := by
  intro fams
  induction fams with
  | nil => intro ps _; rfl
  | cons g rest ih =>
    intro ps h
    show buildIndex (tsLinkFamily ps g) rest = ps
    rw [tsLinkFamily_eq_of_covered ps g (h g (List.mem_cons_self g rest))]
    exact ih ps (fun f hf => h f (List.mem_cons_of_mem g hf))

/-- C3 (amended, ts linker): `buildIndex` is idempotent — a second pass
over the same families changes nothing, because the first pass left every
family's children recorded on its spouses and the push is guarded by an
id-membership test; that guard also keeps every children list free of
duplicates. -/
theorem C3_buildIndex_idempotent_ts (ps : List Person) (fams : List Family) :
    buildIndex (buildIndex ps fams) fams = buildIndex ps fams ∧
    ((∀ p ∈ ps, p.children.Nodup) → ∀ p ∈ buildIndex ps fams, p.children.Nodup) := by
  constructor
  · exact buildIndex_eq_of_covered fams (buildIndex ps fams)
      (fun f hf => buildIndex_covers fams ps f hf)
  · intro hnodup
    induction fams generalizing ps with
    | nil => exact hnodup
    | cons g rest ih =>
      refine ih (tsLinkFamily ps g) ?_
      intro p2 hp2
      have hside : ∀ (side : Option String) (qs : List Person),
          (∀ p ∈ qs, p.children.Nodup) →
          ∀ q ∈ (match side with
            | some x => updAll qs x
                (fun p => { p with children := pushChildrenDedup p.children g.children })
            | none => qs : List Person), q.children.Nodup := by
        intro side qs hq q hqmem
        cases side with
        | none => exact hq q hqmem
        | some x =>
          obtain ⟨p1, hp1, heq⟩ := List.mem_map.mp hqmem
          by_cases hid : p1.id = x
          · rw [← heq, if_pos hid]
            exact pushChildrenDedup_nodup g.children p1.children (hq p1 hp1)
          · rw [← heq, if_neg hid]
            exact hq p1 hp1
      exact hside g.wife _ (hside g.husband ps hnodup) p2 hp2

/-- Witness for the C3 theorem at the concrete three-person dataset. -/
theorem C3_buildIndex_idempotent_ts_witness :
    buildIndex (buildIndex c3People c3Families) c3Families = buildIndex c3People c3Families ∧
    (∀ p ∈ buildIndex c3People c3Families, p.children.Nodup) :=
  ⟨(C3_buildIndex_idempotent_ts c3People c3Families).1,
    (C3_buildIndex_idempotent_ts c3People c3Families).2 (by decide)⟩

/-- C3 counterexample (js linker): running the `buildFamilyTree` linking
loop a second time over the same people duplicates every entry — the
husband ends up with children `["@C@", "@C@"]` — because every push is a
blind append with no membership guard. -/
theorem C3_js_counterexample :
    c3LinkedTwice ≠ c3LinkedOnce ∧
    (∃ hp, mapGet c3LinkedTwice "@H@" = some hp ∧ hp.children = ["@C@", "@C@"] ∧
      ¬ hp.children.Nodup) := by
  refine ⟨by decide,
    ⟨⟨"@H@", "H", [], [⟨"@W@", none, none⟩, ⟨"@W@", none, none⟩], ["@C@", "@C@"]⟩,
      by decide, rfl, by decide⟩⟩

/-!
## C4: relationship labels
-/

theorem mem_first_split {α : Type} (l : List α) (a : α) (h : a ∈ l) :
    ∃ p q, l = p ++ a :: q ∧ a ∉ p := by
  induction l with
  | nil => exact absurd h (List.not_mem_nil a)
  | cons b rest ih =>
    by_cases hab : a = b
    · subst hab
      exact ⟨[], rest, rfl, List.not_mem_nil a⟩
    · rcases List.mem_cons.mp h with heq | hmem
      · exact absurd heq hab
      · obtain ⟨p, q, hsplit, hnp⟩ := ih hmem
        exact ⟨b :: p, q, by rw [hsplit]; rfl, by simp [hab, hnp]⟩

/-- Scanning a connection list that does not contain the target returns no
find and only appends to the queue and the visited set. -/
theorem scanConns_not_found (target : String) (path : List Conn) :
    ∀ (conns : List Conn) (queue : List (String × List Conn)) (visited : List String),
      target ∉ conns.map Conn.id →
      ∃ qext vext,
        scanConns target path conns queue visited = (none, queue ++ qext, visited ++ vext) := by
  intro conns
  induction conns with
  | nil =>
    intro queue visited _
    exact ⟨[], [], by simp [scanConns]⟩
  | cons conn rest ih =>
    intro queue visited hno
    have hconn : conn.id ≠ target := by
      intro heq
      exact hno (by simp [← heq])
    have hrest : target ∉ rest.map Conn.id := by
      intro hmem
      exact hno (by simp [hmem])
    rw [scanConns, if_neg hconn]
    by_cases hv : conn.id ∈ visited
    · rw [if_pos hv]
      exact ih queue visited hrest
    · rw [if_neg hv]
      obtain ⟨qext, vext, heq⟩ := ih (queue ++ [(conn.id, path ++ [conn])])
        (visited ++ [conn.id]) hrest
      exact ⟨(conn.id, path ++ [conn]) :: qext, conn.id :: vext, by
        rw [heq, List.append_assoc, List.append_assoc]
        rfl⟩

/-- Scanning a connection list whose first occurrence of the target is the
edge `tc` returns the path extended with exactly that edge. -/
theorem scanConns_found (target : String) (path : List Conn) :
    ∀ (pre : List Conn) (tc : Conn) (post : List Conn)
      (queue : List (String × List Conn)) (visited : List String),
      (∀ x ∈ pre, x.id ≠ target) → tc.id = target →
      ∃ q v, scanConns target path (pre ++ tc :: post) queue visited =
        (some (path ++ [tc]), q, v) := by
  intro pre
  induction pre with
  | nil =>
    intro tc post queue visited _ htc
    exact ⟨queue, visited, by rw [List.nil_append, scanConns, if_pos htc]⟩
  | cons x xs ih =>
    intro tc post queue visited hpre htc
    rw [List.cons_append, scanConns,
      if_neg (hpre x (List.mem_cons_self x xs))]
    by_cases hv : x.id ∈ visited
    · rw [if_pos hv]
      exact ih tc post queue visited (fun y hy => hpre y (List.mem_cons_of_mem x hy)) htc
    · rw [if_neg hv]
      exact ih tc post _ _ (fun y hy => hpre y (List.mem_cons_of_mem x hy)) htc

/-- One BFS iteration that finds the target while scanning the dequeued
node's connections. -/
theorem bfsLoop_succ_some (s : FamilyDataStore) (target : String) (fuel : Nat)
    (currentId : String) (path : List Conn) (queue : List (String × List Conn))
    (visited : List String) (current : Person)
    (hcur : mapGet s.people currentId = some current)
    (found : List Conn) (q : List (String × List Conn)) (v : List String)
    (hscan : scanConns target path (connections current) queue visited = (some found, q, v)) :
    bfsLoop s target (Nat.succ fuel) ((currentId, path) :: queue) visited = some found := by
  rw [bfsLoop, hcur]
  show (match scanConns target path (connections current) queue visited with
    | (some f, _, _) => some f
    | (none, queue1, visited1) => bfsLoop s target fuel queue1 visited1) = some found
  rw [hscan]

/-- One BFS iteration that does not find the target and continues with the
extended queue and visited set. -/
theorem bfsLoop_succ_cont (s : FamilyDataStore) (target : String) (fuel : Nat)
    (currentId : String) (path : List Conn) (queue : List (String × List Conn))
    (visited : List String) (current : Person)
    (hcur : mapGet s.people currentId = some current)
    (q : List (String × List Conn)) (v : List String)
    (hscan : scanConns target path (connections current) queue visited = (none, q, v)) :
    bfsLoop s target (Nat.succ fuel) ((currentId, path) :: queue) visited =
      bfsLoop s target fuel q v := by
  rw [bfsLoop, hcur]
  show (match scanConns target path (connections current) queue visited with
    | (some f, _, _) => some f
    | (none, queue1, visited1) => bfsLoop s target fuel queue1 visited1) = bfsLoop s target fuel q v
  rw [hscan]

theorem describe_two_parents (b c : String) :
    describeRelationship [⟨b, "parent"⟩, ⟨c, "parent"⟩] = "Grandparent" := rfl

theorem describe_two_children (b a : String) :
    describeRelationship [⟨b, "child"⟩, ⟨a, "child"⟩] = "Grandchild" := rfl

/-- The generic two-hop BFS run: the start's first connection is `⟨b,t1⟩`,
the target is not adjacent to the start, and the first occurrence of the
target among b's connections is the edge `tc`; then the BFS returns the
two-edge path through b. -/
theorem bfsLoop_two_hops (s : FamilyDataStore) (target start : String) (k : Nat)
    (PS : Person) (hPS : mapGet s.people start = some PS)
    (b : String) (t1 : String) (tail : List Conn)
    (hconn : connections PS = ⟨b, t1⟩ :: tail)
    (hno : target ∉ (connections PS).map Conn.id)
    (hbs : b ≠ start)
    (PB : Person) (hPB : mapGet s.people b = some PB)
    (pre : List Conn) (tc : Conn) (post : List Conn)
    (hconnB : connections PB = pre ++ tc :: post)
    (hpre : ∀ x ∈ pre, x.id ≠ target) (htc : tc.id = target) :
    bfsLoop s target (k + 2) [(start, [])] [start] = some [⟨b, t1⟩, tc] := by
  have hbt : ¬ ((⟨b, t1⟩ : Conn).id = target) := by
    intro heq
    apply hno
    rw [hconn]
    simp only [List.map_cons, List.mem_cons]
    exact Or.inl heq.symm
  have hbv : ¬ ((⟨b, t1⟩ : Conn).id ∈ [start]) := by
    simpa using hbs
  have htail : target ∉ tail.map Conn.id := by
    intro hmem
    apply hno
    rw [hconn]
    simp [hmem]
  obtain ⟨qext, vext, hrest⟩ := scanConns_not_found target [] tail
    [(b, [⟨b, t1⟩])] [start, b] htail
  have hscanS : scanConns target [] (connections PS) [] [start] =
      (none, (b, [⟨b, t1⟩]) :: qext, [start, b] ++ vext) := by
    rw [hconn, scanConns, if_neg hbt, if_neg hbv]
    exact hrest
  have h1 : bfsLoop s target (k + 2) [(start, [])] [start] =
      bfsLoop s target (Nat.succ k) ((b, [⟨b, t1⟩]) :: qext) ([start, b] ++ vext) :=
    bfsLoop_succ_cont s target (Nat.succ k) start [] [] [start] PS hPS _ _ hscanS
  obtain ⟨q2, v2, hscanB⟩ := scanConns_found target [⟨b, t1⟩] pre tc post
    qext ([start, b] ++ vext) hpre htc
  have h2 : bfsLoop s target (Nat.succ k) ((b, [⟨b, t1⟩]) :: qext) ([start, b] ++ vext) =
      some ([⟨b, t1⟩] ++ [tc]) := by
    refine bfsLoop_succ_some s target k b [⟨b, t1⟩] qext ([start, b] ++ vext) PB hPB _ q2 v2 ?_
    rw [hconnB]
    exact hscanB
  rw [h1, h2]
  rfl

/-- `calculateRelationship` under the two-hop scenario of
`bfsLoop_two_hops`: it returns the described two-edge path. -/
theorem calc_two_hops (s : FamilyDataStore) (start target : String)
    (hst : start ≠ target)
    (PS : Person) (hPS : mapGet s.people start = some PS)
    (b : String) (t1 : String) (tail : List Conn)
    (hconn : connections PS = ⟨b, t1⟩ :: tail)
    (hno : target ∉ (connections PS).map Conn.id)
    (hbs : b ≠ start)
    (PB : Person) (hPB : mapGet s.people b = some PB)
    (pre : List Conn) (tc : Conn) (post : List Conn)
    (hconnB : connections PB = pre ++ tc :: post)
    (hpre : ∀ x ∈ pre, x.id ≠ target) (htc : tc.id = target) :
    calculateRelationship s start target =
      (describeRelationship [⟨b, t1⟩, tc], [⟨b, t1⟩, tc]) := by
  have hb : bfsLoop s target (bfsFuel s) [(start, [])] [start] = some [⟨b, t1⟩, tc] :=
    bfsLoop_two_hops s target start
      ((s.people.map (fun p => (connections p).length)).sum + s.people.length)
      PS hPS b t1 tail hconn hno hbs PB hPB pre tc post hconnB hpre htc
  rw [calculateRelationship, if_neg hst, hb]

/-- C4 (amended): with A's first parent B, B a parent of C, and no edge
from A directly to C, `calculateRelationship(A, C)` returns "Grandparent" —
the label names what the second person is to the first — and symmetrically
`calculateRelationship(C, A)` returns "Grandchild" when C's only
connections start with the child edge to B and A appears among B's
children but not among B's parents. -/
theorem C4_relationship_labels (s : FamilyDataStore) (a b c : String)
    (hac : a ≠ c) (hba : b ≠ a) (hbc : b ≠ c)
    (PA : Person) (hPA : mapGet s.people a = some PA)
    (hheadA : PA.parents.head? = some b)
    (hnoA : c ∉ (connections PA).map Conn.id)
    (PB : Person) (hPB : mapGet s.people b = some PB)
    (hcB : c ∈ PB.parents)
    (PC : Person) (hPC : mapGet s.people c = some PC)
    (hparC : PC.parents = []) (hheadC : PC.children.head? = some b)
    (hnoC : a ∉ (connections PC).map Conn.id)
    (haB : a ∈ PB.children) (hnaB : a ∉ PB.parents) :
    calculateRelationship s a c = ("Grandparent", [⟨b, "parent"⟩, ⟨c, "parent"⟩]) ∧
    calculateRelationship s c a = ("Grandchild", [⟨b, "child"⟩, ⟨a, "child"⟩]) := by
  constructor
  · -- direction A → C
    obtain ⟨restA, hrestA⟩ : ∃ restA, PA.parents = b :: restA := by
      cases hp : PA.parents with
      | nil => rw [hp] at hheadA; cases hheadA
      | cons x xs =>
        rw [hp] at hheadA
        simp only [List.head?_cons, Option.some.injEq] at hheadA
        exact ⟨xs, by rw [hheadA]⟩
    have hconnA : connections PA = ⟨b, "parent"⟩ ::
        (restA.map (fun id => (⟨id, "parent"⟩ : Conn)) ++
          PA.children.map (fun id => (⟨id, "child"⟩ : Conn)) ++
          PA.spouses.map (fun e => (⟨e.person, "spouse"⟩ : Conn))) := by
      rw [connections, hrestA]
      rfl
    obtain ⟨p, q, hsplit, hnp⟩ := mem_first_split PB.parents c hcB
    have hconnB : connections PB =
        p.map (fun id => (⟨id, "parent"⟩ : Conn)) ++ (⟨c, "parent"⟩ : Conn) ::
          (q.map (fun id => (⟨id, "parent"⟩ : Conn)) ++
            PB.children.map (fun id => (⟨id, "child"⟩ : Conn)) ++
            PB.spouses.map (fun e => (⟨e.person, "spouse"⟩ : Conn))) := by
      rw [connections, hsplit]
      simp [List.append_assoc]
    have hpre : ∀ x ∈ p.map (fun id => (⟨id, "parent"⟩ : Conn)), x.id ≠ c := by
      intro x hx
      obtain ⟨y, hy, rfl⟩ := List.mem_map.mp hx
      show y ≠ c
      intro heq
      rw [heq] at hy
      exact hnp hy
    have h := calc_two_hops s a c hac PA hPA b "parent" _ hconnA hnoA hba PB hPB
      _ ⟨c, "parent"⟩ _ hconnB hpre rfl
    rw [h, describe_two_parents]
  · -- direction C → A
    obtain ⟨restC, hrestC⟩ : ∃ restC, PC.children = b :: restC := by
      cases hp : PC.children with
      | nil => rw [hp] at hheadC; cases hheadC
      | cons x xs =>
        rw [hp] at hheadC
        simp only [List.head?_cons, Option.some.injEq] at hheadC
        exact ⟨xs, by rw [hheadC]⟩
    have hconnC : connections PC = ⟨b, "child"⟩ ::
        (restC.map (fun id => (⟨id, "child"⟩ : Conn)) ++
          PC.spouses.map (fun e => (⟨e.person, "spouse"⟩ : Conn))) := by
      rw [connections, hparC, hrestC]
      rfl
    obtain ⟨p, q, hsplit, hnp⟩ := mem_first_split PB.children a haB
    have hconnB : connections PB =
        (PB.parents.map (fun id => (⟨id, "parent"⟩ : Conn)) ++
          p.map (fun id => (⟨id, "child"⟩ : Conn))) ++ (⟨a, "child"⟩ : Conn) ::
          (q.map (fun id => (⟨id, "child"⟩ : Conn)) ++
            PB.spouses.map (fun e => (⟨e.person, "spouse"⟩ : Conn))) := by
      rw [connections, hsplit]
      simp [List.append_assoc]
    have hpre : ∀ x ∈ PB.parents.map (fun id => (⟨id, "parent"⟩ : Conn)) ++
        p.map (fun id => (⟨id, "child"⟩ : Conn)), x.id ≠ a := by
      intro x hx
      rcases List.mem_append.mp hx with hx2 | hx2
      · obtain ⟨y, hy, rfl⟩ := List.mem_map.mp hx2
        show y ≠ a
        intro heq
        rw [heq] at hy
        exact hnaB hy
      · obtain ⟨y, hy, rfl⟩ := List.mem_map.mp hx2
        show y ≠ a
        intro heq
        rw [heq] at hy
        exact hnp hy
    have h := calc_two_hops s c a (fun heq => hac heq.symm) PC hPC b "child" _
      hconnC hnoC hbc PB hPB _ ⟨a, "child"⟩ _ hconnB hpre rfl
    rw [h, describe_two_children]

/-- Witness for C4 on the linked three-generation chain store. -/
theorem C4_relationship_labels_witness :
    calculateRelationship chainStore "A" "C" =
      ("Grandparent", [⟨"B", "parent"⟩, ⟨"C", "parent"⟩]) ∧
    calculateRelationship chainStore "C" "A" =
      ("Grandchild", [⟨"B", "child"⟩, ⟨"A", "child"⟩]) :=
  C4_relationship_labels chainStore "A" "B" "C" (by decide) (by decide) (by decide)
    ⟨"A", "A", ["B"], [], []⟩ (by decide) (by decide) (by decide)
    ⟨"B", "B", ["C"], [], ["A"]⟩ (by decide) (by decide)
    ⟨"C", "C", [], [], ["B"]⟩ (by decide) (by decide) (by decide) (by decide)
    (by decide) (by decide)

/-- C4 counterexample: on the pure three-generation chain (A's parent is B,
B's parent is C, no shorter connecting path), `calculateRelationship(A, C)`
returns "Grandparent", not "Grandchild" as claimed, and
`calculateRelationship(C, A)` returns "Grandchild", not "Grandparent" — the
claim has the two labels swapped. -/
theorem C4_counterexample :
    (calculateRelationship chainStore "A" "C").1 = "Grandparent" ∧
    (calculateRelationship chainStore "A" "C").1 ≠ "Grandchild" ∧
    (calculateRelationship chainStore "C" "A").1 = "Grandchild" ∧
    (calculateRelationship chainStore "C" "A").1 ≠ "Grandparent" := by
  refine ⟨by decide, by decide, by decide, by decide⟩

/-!
## C5: date parsing
-/

theorem hasFour_cons_of (a : Char) (l : List Char) (h : hasFourDigits l = true) :
    hasFourDigits (a :: l) = true := by
  rcases l with _ | ⟨p1, _ | ⟨p2, _ | ⟨p3, _ | ⟨p4, r⟩⟩⟩⟩
  · simp [hasFourDigits] at h
  · simp [hasFourDigits] at h
  · simp [hasFourDigits] at h
  · simp [hasFourDigits] at h
  · simp only [hasFourDigits] at h ⊢
    simp [h]

theorem hasFour_cons_false (a : Char) (l : List Char)
    (h : hasFourDigits (a :: l) = false) : hasFourDigits l = false := by
  cases hl : hasFourDigits l with
  | false => rfl
  | true => rw [hasFour_cons_of a l hl] at h; cases h

theorem hasFour_append_left (s : List Char) (h : hasFourDigits s = true) :
    ∀ x : List Char, hasFourDigits (x ++ s) = true := by
  intro x
  induction x with
  | nil => exact h
  | cons a rest ih => exact hasFour_cons_of a (rest ++ s) ih

theorem takeDigits_sound :
    ∀ (n : Nat) (l ds rest : List Char), takeDigits n l = some (ds, rest) →
      l = ds ++ rest ∧ ds.length = n ∧ ∀ c ∈ ds, isDigitChar c = true := by
  intro n
  induction n with
  | zero =>
    intro l ds rest h
    rw [takeDigits] at h
    cases h
    exact ⟨rfl, rfl, by intro c hc; exact absurd hc (List.not_mem_nil c)⟩
  | succ m ih =>
    intro l ds rest h
    cases l with
    | nil => rw [takeDigits] at h; cases h
    | cons c tl =>
      rw [takeDigits] at h
      by_cases hc : isDigitChar c
      · rw [if_pos hc] at h
        cases htl : takeDigits m tl with
        | none => rw [htl] at h; cases h
        | some p =>
          rw [htl] at h
          rcases p with ⟨ds2, rest2⟩
          simp only [Option.map_some', Option.some.injEq, Prod.mk.injEq] at h
          obtain ⟨hds, hrest⟩ := h
          subst hds
          subst hrest
          obtain ⟨hl, hlen, hdig⟩ := ih tl ds2 rest2 htl
          refine ⟨by rw [hl]; rfl, by simp [hlen], ?_⟩
          intro x hx
          rcases List.mem_cons.mp hx with heq | hmem
          · rw [heq]; exact hc
          · exact hdig x hmem
      · rw [if_neg hc] at h
        cases h

theorem hasFour_of_takeDigits4 (l : List Char) (p : List Char × List Char)
    (h : takeDigits 4 l = some p) : hasFourDigits l = true := by
  obtain ⟨hl, hlen, hdig⟩ := takeDigits_sound 4 l p.1 p.2 (by rw [h])
  rcases p with ⟨ds, rest⟩
  rcases ds with _ | ⟨a, _ | ⟨b, _ | ⟨c, _ | ⟨d, tail⟩⟩⟩⟩ <;> simp at hlen
  have htail : tail = [] := by
    simpa using hlen
  subst htail
  rw [hl]
  have ha := hdig a (by simp)
  have hb := hdig b (by simp)
  have hc := hdig c (by simp)
  have hd := hdig d (by simp)
  simp [hasFourDigits, ha, hb, hc, hd]

theorem takeWs1_suffix (l r : List Char) (h : takeWs1 l = some r) :
    ∃ x, l = x ++ r := by
  cases l with
  | nil => rw [takeWs1] at h; cases h
  | cons c tl =>
    rw [takeWs1] at h
    by_cases hc : isWsChar c
    · rw [if_pos hc] at h
      cases h
      obtain ⟨x, hx⟩ : ∃ x, tl = x ++ tl.dropWhile isWsChar := by
        clear hc c
        induction tl with
        | nil => exact ⟨[], rfl⟩
        | cons a rest ih =>
          by_cases ha : isWsChar a
          · obtain ⟨x, hx⟩ := ih
            refine ⟨a :: x, ?_⟩
            rw [List.dropWhile_cons, if_pos ha]
            show a :: rest = a :: (x ++ rest.dropWhile isWsChar)
            rw [← hx]
          · refine ⟨[], ?_⟩
            rw [List.dropWhile_cons, if_neg ha]
            rfl
      refine ⟨c :: x, ?_⟩
      show c :: tl = c :: (x ++ List.dropWhile isWsChar tl)
      rw [← hx]
    · rw [if_neg hc] at h
      cases h

theorem takeAlpha3_sound (l : List Char) (p : List Char × List Char)
    (h : takeAlpha3 l = some p) : l = p.1 ++ p.2 := by
  rcases l with _ | ⟨a, _ | ⟨b, _ | ⟨c, rest⟩⟩⟩
  · exact absurd h (by simp [takeAlpha3])
  · exact absurd h (by simp [takeAlpha3])
  · exact absurd h (by simp [takeAlpha3])
  · simp only [takeAlpha3] at h
    by_cases habc : (isUpperAZ a && isUpperAZ b && isUpperAZ c) = true
    · rw [if_pos habc] at h
      cases h
      rfl
    · rw [if_neg habc] at h
      cases h

theorem matchYearAt_hasFour (l : List Char) (y : Nat)
    (h : matchYearAt l = some y) : hasFourDigits l = true := by
  rw [matchYearAt] at h
  cases h4 : takeDigits 4 l with
  | none => rw [h4] at h; cases h
  | some p => exact hasFour_of_takeDigits4 l p h4

theorem searchYear_none (l : List Char) (h : hasFourDigits l = false) :
    searchYear l = none := by
  induction l with
  | nil => rfl
  | cons c rest ih =>
    rw [searchYear]
    cases hm : matchYearAt (c :: rest) with
    | some y => rw [matchYearAt_hasFour (c :: rest) y hm] at h; cases h
    | none => exact ih (hasFour_cons_false c rest h)

theorem matchDMYAtK_hasFour (k : Nat) (l : List Char) (v : Nat × List Char × Nat)
    (h : matchDMYAtK k l = some v) : hasFourDigits l = true := by
  rw [matchDMYAtK] at h
  cases h1 : takeDigits k l with
  | none => simp [h1] at h
  | some p1 =>
    rcases p1 with ⟨d, r1⟩
    simp only [h1] at h
    cases h2 : takeWs1 r1 with
    | none => simp [h2] at h
    | some r2 =>
      simp only [h2] at h
      cases h3 : takeAlpha3 r2 with
      | none => simp [h3] at h
      | some p3 =>
        rcases p3 with ⟨m, r3⟩
        simp only [h3] at h
        cases h4 : takeWs1 r3 with
        | none => simp [h4] at h
        | some r4 =>
          simp only [h4] at h
          cases h5 : takeDigits 4 r4 with
          | none => simp [h5] at h
          | some p5 =>
            have hfour4 : hasFourDigits r4 = true := hasFour_of_takeDigits4 r4 p5 h5
            obtain ⟨x4, hx4⟩ := takeWs1_suffix r3 r4 h4
            have hfour3 : hasFourDigits r3 = true := by
              rw [hx4]
              exact hasFour_append_left r4 hfour4 x4
            have hfour2 : hasFourDigits r2 = true := by
              rw [takeAlpha3_sound r2 (m, r3) h3]
              exact hasFour_append_left r3 hfour3 m
            obtain ⟨x1, hx1⟩ := takeWs1_suffix r1 r2 h2
            have hfour1 : hasFourDigits r1 = true := by
              rw [hx1]
              exact hasFour_append_left r2 hfour2 x1
            obtain ⟨hl, _, _⟩ := takeDigits_sound k l d r1 h1
            rw [hl]
            exact hasFour_append_left r1 hfour1 d

theorem matchDMYAt_hasFour (l : List Char) (v : Nat × List Char × Nat)
    (h : matchDMYAt l = some v) : hasFourDigits l = true := by
  rw [matchDMYAt] at h
  cases h2 : matchDMYAtK 2 l with
  | some r => exact matchDMYAtK_hasFour 2 l r h2
  | none =>
    simp only [h2] at h
    exact matchDMYAtK_hasFour 1 l v h

theorem matchMYAt_hasFour (l : List Char) (v : List Char × Nat)
    (h : matchMYAt l = some v) : hasFourDigits l = true := by
  rw [matchMYAt] at h
  cases h1 : takeAlpha3 l with
  | none => simp [h1] at h
  | some p1 =>
    rcases p1 with ⟨m, r1⟩
    simp only [h1] at h
    cases h2 : takeWs1 r1 with
    | none => simp [h2] at h
    | some r2 =>
      simp only [h2] at h
      cases h3 : takeDigits 4 r2 with
      | none => simp [h3] at h
      | some p3 =>
        have hfour2 : hasFourDigits r2 = true := hasFour_of_takeDigits4 r2 p3 h3
        obtain ⟨x1, hx1⟩ := takeWs1_suffix r1 r2 h2
        have hfour1 : hasFourDigits r1 = true := by
          rw [hx1]
          exact hasFour_append_left r2 hfour2 x1
        rw [takeAlpha3_sound l (m, r1) h1]
        exact hasFour_append_left r1 hfour1 m

theorem searchDMY_none (l : List Char) (h : hasFourDigits l = false) :
    searchDMY l = none := by
  induction l with
  | nil => rfl
  | cons c rest ih =>
    rw [searchDMY]
    cases hm : matchDMYAt (c :: rest) with
    | some v => rw [matchDMYAt_hasFour (c :: rest) v hm] at h; cases h
    | none => exact ih (hasFour_cons_false c rest h)

theorem searchMY_none (l : List Char) (h : hasFourDigits l = false) :
    searchMY l = none := by
  induction l with
  | nil => rfl
  | cons c rest ih =>
    rw [searchMY]
    cases hm : matchMYAt (c :: rest) with
    | some v => rw [matchMYAt_hasFour (c :: rest) v hm] at h; cases h
    | none => exact ih (hasFour_cons_false c rest h)

theorem exists_append_dropWs (l : List Char) : ∃ x, l = x ++ dropWs l := by
  rw [dropWs]
  induction l with
  | nil => exact ⟨[], rfl⟩
  | cons a rest ih =>
    by_cases ha : isWsChar a
    · obtain ⟨x, hx⟩ := ih
      refine ⟨a :: x, ?_⟩
      rw [List.dropWhile_cons, if_pos ha]
      show a :: rest = a :: (x ++ rest.dropWhile isWsChar)
      rw [← hx]
    · refine ⟨[], ?_⟩
      rw [List.dropWhile_cons, if_neg ha]
      rfl

theorem exists_append_dropDot (l : List Char) : ∃ x, l = x ++ dropDot l := by
  cases l with
  | nil => exact ⟨[], rfl⟩
  | cons c rest =>
    rw [dropDot]
    by_cases hc : c = '.'
    · exact ⟨[c], by rw [if_pos hc]; rfl⟩
    · exact ⟨[], by rw [if_neg hc]; rfl⟩

theorem exists_append_stripped (w0 : List Char) (n : Nat) :
    ∃ x, w0 = x ++ dropWs (dropDot (w0.drop n)) := by
  obtain ⟨x2, hx2⟩ := exists_append_dropDot (w0.drop n)
  obtain ⟨x3, hx3⟩ := exists_append_dropWs (dropDot (w0.drop n))
  refine ⟨w0.take n ++ (x2 ++ x3), ?_⟩
  calc w0 = w0.take n ++ w0.drop n := (List.take_append_drop n w0).symm
    _ = w0.take n ++ (x2 ++ dropDot (w0.drop n)) := by rw [← hx2]
    _ = w0.take n ++ (x2 ++ (x3 ++ dropWs (dropDot (w0.drop n)))) := by rw [← hx3]
    _ = w0.take n ++ (x2 ++ x3) ++ dropWs (dropDot (w0.drop n)) := by
        rw [List.append_assoc, List.append_assoc]

theorem exists_append_stripped_nodot (w0 : List Char) (n : Nat) :
    ∃ x, w0 = x ++ dropWs (w0.drop n) := by
  obtain ⟨x3, hx3⟩ := exists_append_dropWs (w0.drop n)
  refine ⟨w0.take n ++ x3, ?_⟩
  calc w0 = w0.take n ++ w0.drop n := (List.take_append_drop n w0).symm
    _ = w0.take n ++ (x3 ++ dropWs (w0.drop n)) := by rw [← hx3]
    _ = w0.take n ++ x3 ++ dropWs (w0.drop n) := by rw [List.append_assoc]

theorem jsStripQualifier_suffix (w0 : List Char) :
    ∃ x, w0 = x ++ (jsStripQualifier w0).2.2 := by
  rw [jsStripQualifier]
  split
  · exact exists_append_stripped w0 3
  · split
    · exact exists_append_stripped_nodot w0 5
    · split
      · exact exists_append_stripped w0 3
      · split
        · exact exists_append_stripped w0 3
        · split
          · exact exists_append_stripped w0 3
          · split
            · exact exists_append_stripped w0 3
            · split
              · exact exists_append_stripped w0 3
              · exact ⟨[], rfl⟩

/-- A string with no four-consecutive-digit run anywhere (after the
case-insensitive qualifier handling, which only removes a prefix) matches
none of the three date shapes: the parser returns an object with every
numeric field empty and the original string preserved — and it returns an
object, never throwing. -/
theorem jsParseDate_garbage (s : String) (hne : s ≠ "")
    (hfour : hasFourDigits (s.data.map upChar) = false) :
    jsParseDate s = some ⟨s, none, none, none, (jsStripQualifier (s.data.map upChar)).1,
      (jsStripQualifier (s.data.map upChar)).2.1⟩ := by
  have hW : hasFourDigits (jsStripQualifier (s.data.map upChar)).2.2 = false := by
    cases hw : hasFourDigits (jsStripQualifier (s.data.map upChar)).2.2 with
    | false => rfl
    | true =>
      obtain ⟨x, hx⟩ := jsStripQualifier_suffix (s.data.map upChar)
      rw [hx, hasFour_append_left _ hw x] at hfour
      cases hfour
  rw [jsParseDate, if_neg hne]
  simp only [searchDMY_none _ hW, searchMY_none _ hW, searchYear_none _ hW]

/-- C5 (amended): the timeline.js date parser satisfies the claim —
"ABT 1890" yields approximate with the bare year, a bare "1965" yields only
the year, and any non-empty text without a four-digit run yields an object
with all numeric fields empty and the original preserved, never throwing. -/
theorem C5_date_parsing_js :
    jsParseDate "ABT 1890" = some ⟨"ABT 1890", some 1890, none, none, true, none⟩ ∧
    jsParseDate "1965" = some ⟨"1965", some 1965, none, none, false, none⟩ ∧
    (∀ s : String, s ≠ "" → hasFourDigits (s.data.map upChar) = false →
      ∃ dobj, jsParseDate s = some dobj ∧ dobj.original = s ∧
        dobj.year = none ∧ dobj.month = none ∧ dobj.day = none) := by
  refine ⟨by decide, by decide, ?_⟩
  intro s hne hfour
  exact ⟨_, jsParseDate_garbage s hne hfour, rfl, rfl, rfl, rfl⟩

/-- Witness for C5 at the garbage input "UNKNOWN DATE". -/
theorem C5_date_parsing_js_witness :
    ("UNKNOWN DATE" ≠ "" ∧ hasFourDigits (("UNKNOWN DATE").data.map upChar) = false) ∧
    (∃ dobj, jsParseDate "UNKNOWN DATE" = some dobj ∧ dobj.original = "UNKNOWN DATE" ∧
      dobj.year = none ∧ dobj.month = none ∧ dobj.day = none) :=
  ⟨⟨by decide, by decide⟩,
    C5_date_parsing_js.2.2 "UNKNOWN DATE" (by decide) (by decide)⟩

/-- C5 counterexample (ts parser): on the bare year "1965" the ts
`parseDate` populates `month` with 19 — the first one-or-two-digit run of
the string, i.e. the first two digits of the year — so "year=1965 and no
other numeric fields" is false for it (and its `DateObject` has no
approximate flag at all for the "ABT 1890" part of the claim). -/
theorem C5_ts_counterexample :
    tsParseDate "1965" = some ⟨some 1965, some 19, none, some "1965"⟩ ∧
    (some 19 : Option Nat) ≠ none :=
  ⟨by decide, by decide⟩
